import Mathlib

/-!
Verification of the deepseek_proxy repository (deepseek_proxy.py): a local
HTTP forwarding proxy that admits requests by path prefix, normalizes JSON
bodies (strips empty "tools" arrays, flattens structured message content,
injects default parameters), forwards to an upstream with a forced bearer
token, and cleans the upstream response.

Modelling conventions:
- Python JSON values are the inductive `JSON`.  Objects are ordered
  association lists of string keys (Python dicts preserve insertion order);
  well-formedness `jwf` states that keys are unique at every object, which
  every Python dict satisfies by construction.
- Numbers carry their literal rendering as a string (`JSON.num "0.7"`): the
  program never computes with numbers, and `json.dumps` prints the repr.
- Raw HTTP byte strings are modelled as Lean `String`s.
- `json.loads` / `request.get_json` / `resp.json()` are external parsers;
  each request/response carries the parse outcome as an oracle field
  (`Except PyExc JSON`).  `PyExc.typeError` is Python `TypeError` (the only
  class the source catches); `PyExc.otherError` covers every other
  exception (json.JSONDecodeError, UnicodeDecodeError, werkzeug
  BadRequest, ...), which the source's `except TypeError` does not catch.
- `remove_empty_tools_in_obj` recurses into the entries of an object it
  has already partially rewritten, which is not structural recursion; it
  is defined with an explicit fuel argument (structural on `Nat`), and the
  public wrapper instantiates the fuel with the node count `jsz`, which
  strictly bounds the recursion depth.  All other recursive functions are
  plain structural recursions.
-/

/-- A Python/JSON value tree: null, booleans, numbers (kept as their
literal rendering, since the proxy never computes with them), strings,
arrays, and ordered string-keyed objects. -/
inductive JSON where
  | null : JSON
  | bool (b : Bool) : JSON
  | num (lit : String) : JSON
  | str (s : String) : JSON
  | arr (xs : List JSON) : JSON
  | obj (fs : List (String × JSON)) : JSON

/-- Python `isinstance(x, (dict, list))`: the shapes the proxy recurses into. -/
def isContainer : JSON → Bool
  | .obj _ => true
  | .arr _ => true
  | _ => false

/-- Whether a value is exactly the empty array (the shape stripped from "tools"). -/
def isEmptyArr : JSON → Bool
  | .arr [] => true
  | _ => false

/-- First binding for a key in an association list: Python `d[k]` / `d.get(k)`. -/
def lookupA {α : Type} : List (String × α) → String → Option α
  | [], _ => none
  | (k, v) :: rest, key => if k == key then some v else lookupA rest key

/-- Remove the binding for a key: Python `del d[k]` (dicts hold one binding per key). -/
def eraseA {α : Type} : List (String × α) → String → List (String × α)
  | [], _ => []
  | (k, v) :: rest, key => if k == key then rest else (k, v) :: eraseA rest key

/-- Update the binding for a key in place, or append it: Python `d[k] = v`
(assignment to an existing key keeps its position; a new key goes last). -/
def setA {α : Type} : List (String × α) → String → α → List (String × α)
  | [], key, w => [(key, w)]
  | (k, v) :: rest, key, w => if k == key then (k, w) :: rest else (k, v) :: setA rest key w

/-- Remove every binding whose key equals the given key (used to state what
it means for two header lists to differ only in one header). -/
def eraseAllA {α : Type} (l : List (String × α)) (key : String) : List (String × α) :=
  l.filter fun kv => !(kv.1 == key)

/-- Uniqueness of a list of keys. -/
def nodupKeys : List String → Bool
  | [] => true
  | k :: rest => !(rest.contains k) && nodupKeys rest

/-- Uniqueness of the keys of an association list (every Python dict satisfies it). -/
def keysNodup {α : Type} (l : List (String × α)) : Bool :=
  nodupKeys (l.map Prod.fst)

mutual
/-- Node count of a JSON tree; it strictly bounds the recursion depth of
every traversal in the program and serves as fuel for the one
non-structural recursion. -/
def jsz : JSON → Nat
  | .arr xs => 1 + jszL xs
  | .obj fs => 1 + jszF fs
  | _ => 1
def jszL : List JSON → Nat
  | [] => 0
  | x :: rest => 1 + jsz x + jszL rest
def jszF : List (String × JSON) → Nat
  | [] => 0
  | (_, v) :: rest => 1 + jsz v + jszF rest
end

/-! ## remove_empty_tools_in_obj (deepseek_proxy.py lines 68-102)

The Python function mutates the tree in place and returns whether it
modified anything; the model returns the new tree paired with that flag.
The body of the dict case runs three sequential phases:
`step1` (delete a top-level empty "tools"), `step2` (the special-cased
"choices" traversal), and a generic recursion over the (already updated)
entries. -/

/-- Lines 76-78: `if "tools" in obj and isinstance(obj["tools"], list) and
len(obj["tools"]) == 0: del obj["tools"]; modified = True`. -/
def step1 (fs : List (String × JSON)) : List (String × JSON) × Bool :=
  match lookupA fs "tools" with
  | some (.arr []) => (eraseA fs "tools", true)
  | _ => (fs, false)

/-- Lines 83-88: inside a choice dict, if `choice.get("message")` is a dict
with an empty "tools" array, delete it and store the message back. -/
def fixMessage (cfs : List (String × JSON)) : List (String × JSON) × Bool :=
  match lookupA cfs "message" with
  | some (.obj mfs) =>
    match lookupA mfs "tools" with
    | some (.arr []) => (setA cfs "message" (.obj (eraseA mfs "tools")), true)
    | _ => (cfs, false)
  | _ => (cfs, false)

/-- Lines 82-91: handle one element of the "choices" list (non-dict
elements are left alone; the message is fixed first, then the choice's own
empty "tools" is deleted). -/
def fixChoice (c : JSON) : JSON × Bool :=
  match c with
  | .obj cfs =>
    let rm := fixMessage cfs
    match lookupA rm.1 "tools" with
    | some (.arr []) => (.obj (eraseA rm.1 "tools"), rm.2 || true)
    | _ => (.obj rm.1, rm.2 || false)
  | c => (c, false)

/-- Lines 80-91: if "choices" holds a list, run `fixChoice` over its
elements (the list object is mutated in place, so the entry keeps its
position). -/
def step2 (fs : List (String × JSON)) : List (String × JSON) × Bool :=
  match lookupA fs "choices" with
  | some (.arr cs) =>
    let rs := cs.map fixChoice
    (setA fs "choices" (.arr (rs.map Prod.fst)), rs.any Prod.snd)
  | _ => (fs, false)

/-- Apply the recursive cleaner to a child value only when it is a dict or
list (lines 94 and 99: `isinstance(v, (dict, list))`). -/
def recInto (r : JSON → JSON × Bool) (v : JSON) : JSON × Bool :=
  if isContainer v then r v else (v, false)

/-- One unfolding of `remove_empty_tools_in_obj`, with `r` standing for the
recursive calls on child values. -/
def remStep (r : JSON → JSON × Bool) : JSON → JSON × Bool
  | .obj fs =>
    let r1 := step1 fs
    let r2 := step2 r1.1
    let rs := r2.1.map fun kv => (kv.1, recInto r kv.2)
    (.obj (rs.map fun kr => (kr.1, kr.2.1)),
      r1.2 || r2.2 || rs.any fun kr => kr.2.2)
  | .arr xs =>
    let rs := xs.map (recInto r)
    (.arr (rs.map Prod.fst), rs.any Prod.snd)
  | j => (j, false)

/-- Fueled recursion for `remove_empty_tools_in_obj`; the fuel strictly
bounds the nesting depth of the tree, so the zero case is never reached
when called with fuel `jsz j`. -/
def remF : Nat → JSON → JSON × Bool
  | 0, j => (j, false)
  | n + 1, j => remStep (remF n) j

/-- `remove_empty_tools_in_obj` (lines 68-102): returns the cleaned tree
and Python's `modified` flag. -/
def removeEmptyTools (j : JSON) : JSON × Bool :=
  remF (jsz j) j

/-- One unfolding of the simplified variant considered by the spec: only
the root-level empty-"tools" deletion plus the generic recursion, without
the special-cased "choices" traversal of lines 79-91. -/
def remSimpleStep (r : JSON → JSON × Bool) : JSON → JSON × Bool
  | .obj fs =>
    let r1 := step1 fs
    let rs := r1.1.map fun kv => (kv.1, recInto r kv.2)
    (.obj (rs.map fun kr => (kr.1, kr.2.1)),
      r1.2 || rs.any fun kr => kr.2.2)
  | .arr xs =>
    let rs := xs.map (recInto r)
    (.arr (rs.map Prod.fst), rs.any Prod.snd)
  | j => (j, false)

/-- Fueled recursion for the simplified variant. -/
def remSimpleF : Nat → JSON → JSON × Bool
  | 0, j => (j, false)
  | n + 1, j => remSimpleStep (remSimpleF n) j

/-- The simplified variant of `remove_empty_tools_in_obj` without the
"choices" special case. -/
def removeEmptyToolsSimple (j : JSON) : JSON × Bool :=
  remSimpleF (jsz j) j

/-! ## Specification-side description of empty-tools stripping

`stripSpec` removes exactly the object entries named "tools" whose value is
an empty array, at every depth, and keeps everything else; `hasET` decides
whether any such entry occurs.  These express the spec sentence "after
strip-empty-tools the tools key is absent at that location; everything
else is untouched". -/

mutual
/-- Spec-side stripping: remove every `"tools": []` entry at every depth,
keep everything else unchanged. -/
def stripSpec : JSON → JSON
  | .obj fs => .obj (stripFields fs)
  | .arr xs => .arr (stripList xs)
  | j => j
/-- Spec-side stripping of the entries of one object. -/
def stripFields : List (String × JSON) → List (String × JSON)
  | [] => []
  | (k, v) :: rest =>
    if k == "tools" && isEmptyArr v then stripFields rest
    else (k, stripSpec v) :: stripFields rest
/-- Spec-side stripping of the elements of one array. -/
def stripList : List JSON → List JSON
  | [] => []
  | x :: rest => stripSpec x :: stripList rest
end

mutual
/-- Whether the tree contains an object entry `"tools": []` at any depth. -/
def hasET : JSON → Bool
  | .obj fs => hasETFields fs
  | .arr xs => hasETList xs
  | _ => false
/-- Whether any entry of an object is `"tools": []` or contains one below. -/
def hasETFields : List (String × JSON) → Bool
  | [] => false
  | (k, v) :: rest => (k == "tools" && isEmptyArr v) || hasET v || hasETFields rest
/-- Whether any element of an array contains a `"tools": []` entry. -/
def hasETList : List JSON → Bool
  | [] => false
  | x :: rest => hasET x || hasETList rest
end

/-! ## json.dumps (ensure_ascii=False)

`dumps` models `json.dumps(x, ensure_ascii=False)` with the default
separators `", "` and `": "`.  String escaping follows Python's escape
table (backslash, double quote, the named control escapes, and a `\uXXXX`
form for the remaining control characters); non-ASCII characters pass
through because of `ensure_ascii=False`.  `json.dumps` cannot raise
`TypeError` on a JSON tree, so the `except TypeError` fallbacks of lines
137-138 and 144-145 are unreachable and have no counterpart here. -/

/-- Lowercase hex digit of a value below 16. -/
def hexDigit (n : Nat) : Char :=
  if n < 10 then Char.ofNat (48 + n) else Char.ofNat (87 + n)

/-- Escape one character the way Python's json encoder does. -/
def escapeChar (c : Char) : String :=
  if c = '\\' then "\\\\"
  else if c = '\"' then "\\\""
  else if c = '\n' then "\\n"
  else if c = '\t' then "\\t"
  else if c = '\r' then "\\r"
  else if c = Char.ofNat 8 then "\\b"
  else if c = Char.ofNat 12 then "\\f"
  else if c.toNat < 32 then
    String.mk ['\\', 'u', '0', '0', hexDigit (c.toNat / 16), hexDigit (c.toNat % 16)]
  else String.singleton c

/-- Quote a string as a JSON string literal. -/
def quoteJ (s : String) : String :=
  "\"" ++ String.join (s.toList.map escapeChar) ++ "\""

mutual
/-- `json.dumps(x, ensure_ascii=False)` on a JSON tree. -/
def dumps : JSON → String
  | .null => "null"
  | .bool b => if b then "true" else "false"
  | .num lit => lit
  | .str s => quoteJ s
  | .arr xs => "[" ++ dumpsList xs ++ "]"
  | .obj fs => "\x7b" ++ dumpsFields fs ++ "\x7d"
/-- Array elements joined by the default item separator. -/
def dumpsList : List JSON → String
  | [] => ""
  | [x] => dumps x
  | x :: y :: rest => dumps x ++ ", " ++ dumpsList (y :: rest)
/-- Object entries joined by the default separators. -/
def dumpsFields : List (String × JSON) → String
  | [] => ""
  | [(k, v)] => quoteJ k ++ ": " ++ dumps v
  | (k, v) :: kv :: rest => quoteJ k ++ ": " ++ dumps v ++ ", " ++ dumpsFields (kv :: rest)
end

/-! ## flatten_message_content_in_messages (lines 105-171) -/

/-- Lines 126-138: the text contributed by one element of a list-shaped
`content`: the first string-typed field among "text", "content", "value"
for a dict, the string itself for a string, and the JSON serialization
otherwise (or for a dict lacking all three fields). -/
def partPreferredText : JSON → String
  | .obj pfs =>
    (match lookupA pfs "text" with
     | some (.str s) => s
     | _ =>
       match lookupA pfs "content" with
       | some (.str s) => s
       | _ =>
         match lookupA pfs "value" with
         | some (.str s) => s
         | _ => dumps (.obj pfs))
  | .str s => s
  | p => dumps p

/-- Lines 154-163: the text contributed by one element of the list under a
"parts"/"items"/"segments" key of a dict-shaped `content`: only the "text"
field is preferred here. -/
def partTextOnly : JSON → String
  | .obj pfs =>
    (match lookupA pfs "text" with
     | some (.str s) => s
     | _ => dumps (.obj pfs))
  | .str s => s
  | p => dumps p

/-- Lines 150-167: find the first key among "parts", "items", "segments"
whose value in the dict-shaped `content` is a non-empty list. -/
def firstNonEmptyListKey (cfs : List (String × JSON)) : List String → Option (List JSON)
  | [] => none
  | key :: keys =>
    match lookupA cfs key with
    | some (.arr (x :: xs)) => some (x :: xs)
    | _ => firstNonEmptyListKey cfs keys

/-- Lines 118-167: process one element of the "messages" list.  Non-dict
messages and string or empty-array contents are left alone; a non-empty
list content is flattened with `partPreferredText`; a dict content with a
non-empty "parts"/"items"/"segments" list is flattened with
`partTextOnly`.  The joined string never drops entries: every part
contributes exactly one string, and none of them is Python `None`. -/
def flattenOneMsg (msg : JSON) : JSON × Bool :=
  match msg with
  | .obj mfs =>
    (match lookupA mfs "content" with
     | some (.arr (c :: cs)) =>
       (.obj (setA mfs "content"
          (.str (String.intercalate "\n" ((c :: cs).map partPreferredText)))), true)
     | some (.obj cfs) =>
       (match firstNonEmptyListKey cfs ["parts", "items", "segments"] with
        | some parts =>
          (.obj (setA mfs "content"
             (.str (String.intercalate "\n" (parts.map partTextOnly)))), true)
        | none => (.obj mfs, false))
     | _ => (.obj mfs, false))
  | m => (m, false)

/-- `flatten_message_content_in_messages` (lines 105-171): if the value is
a dict whose "messages" entry is a list, flatten the content of each
message; the mutated list replaces the entry (Python mutates it in
place). -/
def flattenMessages (j : JSON) : JSON × Bool :=
  match j with
  | .obj fs =>
    (match lookupA fs "messages" with
     | some (.arr ms) =>
       let rs := ms.map flattenOneMsg
       if rs.any Prod.snd then (.obj (setA fs "messages" (.arr (rs.map Prod.fst))), true)
       else (.obj fs, false)
     | _ => (.obj fs, false))
  | j => (j, false)

mutual
/-- Well-formedness: every object in the tree has pairwise distinct keys.
Every value produced by Python's `json.loads` satisfies this, since Python
dicts cannot hold a key twice. -/
def jwf : JSON → Bool
  | .obj fs => keysNodup fs && jwfFields fs
  | .arr xs => jwfList xs
  | _ => true
/-- Well-formedness of every value of an object. -/
def jwfFields : List (String × JSON) → Bool
  | [] => true
  | (_, v) :: rest => jwf v && jwfFields rest
/-- Well-formedness of every element of an array. -/
def jwfList : List JSON → Bool
  | [] => true
  | x :: rest => jwf x && jwfList rest
end

/-! ## Configuration constants (lines 37-58) -/

/-- Line 39: the static API key (placeholder value in the source). -/
def DEEPSEEK_KEY : String := "YOUR_DEEPSEEK_KEY_HERE"

/-- Line 41: the default upstream base URL. -/
def DEEPSEEK_UPSTREAM : String := "https://api.deepseek.com"

/-- Line 43: whether to clean empty "tools" from responses. -/
def CLEAN_RESPONSE_TOOLS : Bool := true

/-- Lines 46-50: default request parameters, injected over any client
value.  The numeric literals are kept verbatim. -/
def DEFAULT_PARAMS : List (String × JSON) :=
  [("temperature", .num "0.7"), ("max_tokens", .num "1024")]

/-- Lines 53-58: allowed path prefixes, including the wildcard entry. -/
def ALLOWED_PREFIXES : List String :=
  ["/v1/chat/completions", "/v1/completions", "/v1/models", "/v1/*"]

/-- Python `s.startswith(pre)` (character-list implementation, so that it
computes inside the kernel). -/
def startsWithS (s pre : String) : Bool :=
  pre.toList.isPrefixOf s.toList

/-- Python `s.endswith(suf)`. -/
def endsWithS (s suf : String) : Bool :=
  suf.toList.isSuffixOf s.toList

/-- Python `s[:-n]`: drop the last `n` characters. -/
def dropRightS (s : String) (n : Nat) : String :=
  String.mk (s.toList.take (s.toList.length - n))

/-- Python `s.lower()` (ASCII case folding; headers and content types are
ASCII). -/
def toLowerS (s : String) : String :=
  String.mk (s.toList.map Char.toLower)

/-- The ASCII whitespace stripped by Python `bytes.strip()`. -/
def isPyWS (c : Char) : Bool :=
  c = ' ' || c = '\t' || c = '\n' || c = '\r' || c = Char.ofNat 11 || c = Char.ofNat 12

/-- Python `s.strip()` with no arguments. -/
def trimS (s : String) : String :=
  String.mk (((s.toList.dropWhile isPyWS).reverse.dropWhile isPyWS).reverse)

/-- `should_handle_path` (lines 175-185): a prefix ending in `*` matches
any path starting with the prefix minus the marker; any other prefix
requires equality or a literal prefix match.  True on the first match. -/
def should_handle_path (path : String) : Bool :=
  ALLOWED_PREFIXES.any fun p =>
    if endsWithS p "*" then startsWithS path (dropRightS p 1)
    else path == p || startsWithS path p

/-! ## The request handler (lines 188-298) -/

/-- Python exceptions as the handler distinguishes them: `typeError` is
`TypeError`, the only class the source ever catches; `otherError` carries
the message of any other exception (`json.JSONDecodeError`,
`UnicodeDecodeError`, werkzeug `BadRequest`, ...), which the source's
`except TypeError:` clauses do not catch, so it propagates out of the
handler. -/
inductive PyExc where
  | typeError : PyExc
  | otherError (msg : String) : PyExc
deriving DecidableEq, Repr

/-- An inbound HTTP request.  `path` is Flask's route variable (the URL
path without its leading slash), `data` the raw body bytes, and
`jsonParse` the oracle for what parsing `data` as JSON yields (used by
both `request.get_json(force=True)` and `json.loads`; their failure
exceptions differ but are all non-`TypeError`). -/
structure Request where
  method : String
  path : String
  headers : List (String × String)
  data : String
  jsonParse : Except PyExc JSON

/-- Lines 199-213: read the client body.  An empty body is absent; a
parse yielding `TypeError` is caught and treated as absent; any other
parse exception escapes the `except TypeError:` handlers and aborts the
request handler. -/
def parseBody (req : Request) : Except PyExc (Option JSON) :=
  if req.data == "" then .ok none
  else
    match req.jsonParse with
    | .ok j => .ok (some j)
    | .error .typeError => .ok none
    | .error e => .error e

/-- Line 228-229: set every default parameter on the dict, overwriting
existing values. -/
def injectDefaults (fs : List (String × JSON)) : List (String × JSON) :=
  DEFAULT_PARAMS.foldl (fun acc kv => setA acc kv.1 kv.2) fs

/-- Lines 218-229: normalize a parsed request body: for a dict or list,
strip empty "tools" then flatten message contents; for a dict, also
inject the default parameters. -/
def normalizeBody (j : JSON) : JSON :=
  if isContainer j then
    let j1 := (removeEmptyTools j).1
    let j2 := (flattenMessages j1).1
    match j2 with
    | .obj fs => .obj (injectDefaults fs)
    | _ => j2
  else j

/-- Line 245: headers never copied to the upstream request. -/
def excludedReqHeaders : List String := ["host", "content-length", "content-encoding"]

/-- Lines 242-249: copy every inbound header except the excluded ones into
a fresh dict, then force the Authorization header to the configured bearer
token. -/
def buildHeaders (hs : List (String × String)) : List (String × String) :=
  setA (hs.foldl
          (fun acc kv =>
            if excludedReqHeaders.contains (toLowerS kv.1) then acc
            else setA acc kv.1 kv.2)
          [])
    "Authorization" ("Bearer " ++ DEEPSEEK_KEY)

/-- The body sent upstream: the parsed-and-normalized JSON value when the
body parsed (`json=req_body`), otherwise the raw inbound bytes
(`data=request.get_data()`). -/
inductive OutBody where
  | jsonBody (j : JSON) : OutBody
  | rawBody (bytes : String) : OutBody

/-- The outbound request handed to `requests.request` (lines 254-258). -/
structure OutboundRequest where
  method : String
  url : String
  headers : List (String × String)
  body : OutBody

/-- A buffered upstream response: status, headers, raw content bytes, and
the oracle for what `resp.json()` yields on that content. -/
structure UpstreamResp where
  status : Nat
  headers : List (String × String)
  content : String
  jsonParse : Except PyExc JSON

/-- Outcome of the outbound call: a response, or a transport exception
caught by `except Exception as e` (line 259) with its description. -/
inductive UpstreamOutcome where
  | ok (resp : UpstreamResp) : UpstreamOutcome
  | exc (desc : String) : UpstreamOutcome

/-- The response the handler returns to the client. -/
structure HttpResponse where
  status : Nat
  headers : List (String × String)
  body : String
deriving DecidableEq, Repr

/-- Strip all trailing slashes: Python `s.rstrip("/")` (line 241). -/
def rstripSlash (s : String) : String :=
  String.mk ((s.toList.reverse.dropWhile fun c => c = '/').reverse)

/-- Case-insensitive header lookup, as requests' response-header mapping
does for `resp.headers.get("Content-Type", "")` (line 268). -/
def lookupCI (hs : List (String × String)) (key : String) : Option String :=
  match hs with
  | [] => none
  | kv :: rest => if toLowerS kv.1 == toLowerS key then some kv.2 else lookupCI rest key

/-- Naive substring test over character lists. -/
def hasSubList : List Char → List Char → Bool
  | hay, needle =>
    needle.isPrefixOf hay ||
      match hay with
      | [] => false
      | _ :: t => hasSubList t needle

/-- Python `needle in hay` on strings. -/
def hasSub (hay needle : String) : Bool :=
  hasSubList hay.toList needle.toList

/-- Lines 271-277: the decision predicate for response cleaning: cleaning
enabled, body non-empty, and (content type non-empty and containing
"json", or trimmed body starting with a brace or bracket). -/
def respCleanPredicate (ct txt : String) : Bool :=
  CLEAN_RESPONSE_TOOLS && !(txt == "") &&
    ((!(ct == "") && hasSub (toLowerS ct) "json")
      || startsWithS (trimS txt) "\x7b" || startsWithS (trimS txt) "[")

/-- Lines 266-284: clean the upstream response body.  When the predicate
holds, `resp.json()` is parsed: success strips empty "tools" and
re-serializes only when modified; a `TypeError` is caught by
`except TypeError: pass`, returning the original bytes; any other parse
exception (e.g. `json.JSONDecodeError` on a body that merely starts with
a brace) propagates and aborts the handler. -/
def cleanResponse (resp : UpstreamResp) : Except PyExc String :=
  let ct := (lookupCI resp.headers "Content-Type").getD ""
  let txt := resp.content
  if respCleanPredicate ct txt then
    match resp.jsonParse with
    | .ok data =>
      let r := removeEmptyTools data
      if r.2 then .ok (dumps r.1) else .ok txt
    | .error .typeError => .ok txt
    | .error e => .error e
  else .ok txt

/-- Line 289: hop-by-hop headers never copied back to the client. -/
def excludedRespHeaders : List String :=
  ["content-encoding", "transfer-encoding", "content-length", "connection"]

/-- Lines 289-293: the headers set on the client response: every upstream
header whose name is not excluded, assigned one by one. -/
def buildRespHeaders (hs : List (String × String)) : List (String × String) :=
  (hs.filter fun kv => !(excludedRespHeaders.contains (toLowerS kv.1))).foldl
    (fun acc kv => setA acc kv.1 kv.2) []

/-- The request handler `proxy` (lines 188-298), parameterized by the
network: `up` maps the outbound request to what `requests.request` does
with it.  The result is `Except PyExc` because an exception the source
does not catch (see `parseBody` and `cleanResponse`) aborts the handler
and surfaces as a framework error page instead of a proxied response. -/
def proxy (up : OutboundRequest → UpstreamOutcome) (req : Request) :
    Except PyExc HttpResponse :=
  let full_path := "/" ++ req.path
  if should_handle_path full_path then
    match parseBody req with
    | .error e => .error e
    | .ok rb =>
      let rb2 := rb.map normalizeBody
      let out : OutboundRequest :=
        { method := req.method
          url := rstripSlash DEEPSEEK_UPSTREAM ++ full_path
          headers := buildHeaders req.headers
          body :=
            match rb2 with
            | some j => .jsonBody j
            | none => .rawBody req.data }
      match up out with
      | .exc desc => .ok ⟨502, [], "Upstream request failed: " ++ desc⟩
      | .ok resp =>
        match cleanResponse resp with
        | .error e => .error e
        | .ok body => .ok ⟨resp.status, buildRespHeaders resp.headers, body⟩
  else .ok ⟨404, [], "Not handled by deepseek proxy"⟩

/-! ## Association-list lemmas -/

theorem lookupA_setA {α : Type} (l : List (String × α)) (key k : String) (w : α) :
    lookupA (setA l key w) k = if key == k then some w else lookupA l k := by
  induction l with
  | nil => simp [setA, lookupA]
  | cons kv rest ih =>
    obtain ⟨k0, v0⟩ := kv
    by_cases h : k0 = key
    · subst h
      simp [setA, lookupA]
      by_cases hk : k0 = k <;> simp [hk, lookupA]
    · simp [setA, lookupA, h]
      by_cases hk : k0 = k
      · subst hk
        have : ¬ (key = k0) := fun he => h he.symm
        simp [this, lookupA]
      · simp [hk, ih, lookupA]

theorem setA_of_lookup_none {α : Type} (l : List (String × α)) (key : String) (w : α)
    (h : lookupA l key = none) : setA l key w = l ++ [(key, w)] := by
  induction l with
  | nil => simp [setA]
  | cons kv rest ih =>
    obtain ⟨k0, v0⟩ := kv
    by_cases hk : k0 = key
    · simp [lookupA, hk] at h
    · simp [lookupA, hk] at h
      simp [setA, hk, ih h]

theorem eraseA_of_lookup_none {α : Type} (l : List (String × α)) (key : String)
    (h : lookupA l key = none) : eraseA l key = l := by
  induction l with
  | nil => simp [eraseA]
  | cons kv rest ih =>
    obtain ⟨k0, v0⟩ := kv
    by_cases hk : k0 = key
    · simp [lookupA, hk] at h
    · simp [lookupA, hk] at h
      simp [eraseA, hk, ih h]

theorem lookupA_none_mem {α : Type} (l : List (String × α)) (key : String)
    (h : lookupA l key = none) : ∀ kv ∈ l, (kv.1 == key) = false := by
  induction l with
  | nil => simp
  | cons kv0 rest ih =>
    obtain ⟨k0, v0⟩ := kv0
    by_cases hk : k0 = key
    · simp [lookupA, hk] at h
    · simp [lookupA, hk] at h
      intro kv hkv
      rcases List.mem_cons.mp hkv with hkv | hkv
      · simp [hkv, hk]
      · exact ih h kv hkv

/-- Decomposition of an association list at the first binding of a key:
the prefix is key-free, and `eraseA` / `setA` act exactly there. -/
theorem split_of_lookup {α : Type} {l : List (String × α)} {key : String} {v : α}
    (h : lookupA l key = some v) :
    ∃ pre k0 post, (k0 == key) = true ∧ (∀ kv ∈ pre, (kv.1 == key) = false) ∧
      l = pre ++ (k0, v) :: post ∧ eraseA l key = pre ++ post ∧
      ∀ w, setA l key w = pre ++ (k0, w) :: post := by
  induction l with
  | nil => simp [lookupA] at h
  | cons kv0 rest ih =>
    obtain ⟨k0, v0⟩ := kv0
    by_cases hk : k0 = key
    · subst hk
      simp [lookupA] at h
      subst h
      exact ⟨[], k0, rest, by simp, by simp, by simp, by simp [eraseA], fun w => by simp [setA]⟩
    · simp [lookupA, hk] at h
      obtain ⟨pre, k1, post, hbeq, hpre, hl, herase, hset⟩ := ih h
      refine ⟨(k0, v0) :: pre, k1, post, hbeq, ?_, by simp [hl], ?_, ?_⟩
      · intro kv hkv
        rcases List.mem_cons.mp hkv with hkv | hkv
        · simp [hkv, hk]
        · exact hpre kv hkv
      · simp [eraseA, hk, herase]
      · intro w
        simp [setA, hk, hset w]

theorem setA_of_lookup_self {α : Type} {l : List (String × α)} {key : String} {v : α}
    (h : lookupA l key = some v) : setA l key v = l := by
  obtain ⟨pre, k0, post, _, _, hl, _, hset⟩ := split_of_lookup h
  rw [hset v, hl]

theorem setA_setA_same {α : Type} (l : List (String × α)) (key : String) (v w : α) :
    setA (setA l key v) key w = setA l key w := by
  induction l with
  | nil => simp [setA]
  | cons kv rest ih =>
    obtain ⟨k0, v0⟩ := kv
    by_cases hk : k0 = key <;> simp [setA, hk, ih]

/-- Setting two distinct keys commutes as long as the first one is already
bound (otherwise the two fresh keys would be appended in opposite
orders). -/
theorem setA_comm_of_lookup {α : Type} {l : List (String × α)} {key1 : String} {u : α}
    (key2 : String) (v w : α) (h : lookupA l key1 = some u) (hne : ¬ (key1 = key2)) :
    setA (setA l key1 v) key2 w = setA (setA l key2 w) key1 v := by
  induction l with
  | nil => simp [lookupA] at h
  | cons kv rest ih =>
    obtain ⟨k0, v0⟩ := kv
    by_cases h1 : k0 = key1
    · subst h1
      have h2 : ¬ (k0 = key2) := fun he => hne (he ▸ rfl)
      simp [setA, h2]
    · simp [lookupA, h1] at h
      by_cases h2 : k0 = key2
      · subst h2
        simp [setA, h1]
      · simp [setA, h1, h2, ih h]

/-! ## Root-kind preservation -/

/-- The constructor kind of a JSON value. -/
inductive JKind where
  | knull : JKind
  | kbool : JKind
  | knum : JKind
  | kstr : JKind
  | karr : JKind
  | kobj : JKind
deriving DecidableEq, Repr

/-- The kind of a value. -/
def kindOf : JSON → JKind
  | .null => .knull
  | .bool _ => .kbool
  | .num _ => .knum
  | .str _ => .kstr
  | .arr _ => .karr
  | .obj _ => .kobj

theorem kind_remStep (r : JSON → JSON × Bool) (j : JSON) :
    kindOf (remStep r j).1 = kindOf j := by
  cases j <;> simp [remStep, kindOf]

theorem kind_remF (n : Nat) (j : JSON) : kindOf (remF n j).1 = kindOf j := by
  cases n with
  | zero => rfl
  | succ n => exact kind_remStep (remF n) j

theorem kind_removeEmptyTools (j : JSON) :
    kindOf (removeEmptyTools j).1 = kindOf j :=
  kind_remF (jsz j) j

theorem kind_flattenMessages (j : JSON) :
    kindOf (flattenMessages j).1 = kindOf j := by
  cases j <;> try rfl
  case obj fs =>
    simp only [flattenMessages]
    cases h : lookupA fs "messages" with
    | none => rfl
    | some v =>
      cases v <;> try rfl
      case arr ms =>
        dsimp only
        split <;> rfl

theorem exists_obj_of_kind {j : JSON} (h : kindOf j = JKind.kobj) :
    ∃ fs, j = .obj fs := by
  cases j <;> simp [kindOf] at h ⊢

/-- Root lookup into an object value. -/
def lookupRoot : JSON → String → Option JSON
  | .obj fs, k => lookupA fs k
  | _, _ => none

/-! ## Claim C6: default-parameter injection -/

/-- C6: for every request whose parsed body is an object, after
normalization every configured default parameter key is present with
exactly its configured value, regardless of any prior value under that
key; and applying the default-parameter injection twice yields the same
object as applying it once. -/
theorem defaultParams_present_and_idempotent :
    (∀ (fs0 : List (String × JSON)) (kv : String × JSON), kv ∈ DEFAULT_PARAMS →
        lookupRoot (normalizeBody (.obj fs0)) kv.1 = some kv.2) ∧
    (∀ fs : List (String × JSON), injectDefaults (injectDefaults fs) = injectDefaults fs) := by
  constructor
  · intro fs0 kv hkv
    obtain ⟨fs1, hfs1⟩ := exists_obj_of_kind (kind_removeEmptyTools (.obj fs0))
    obtain ⟨fs2, hfs2⟩ := exists_obj_of_kind (kind_flattenMessages (.obj fs1))
    have hnorm : normalizeBody (.obj fs0) = .obj (injectDefaults fs2) := by
      simp only [normalizeBody, isContainer, if_pos]
      rw [hfs1, hfs2]
    rw [hnorm]
    simp only [lookupRoot]
    simp only [DEFAULT_PARAMS, List.mem_cons, List.not_mem_nil, or_false] at hkv
    have hinj : injectDefaults fs2 =
        setA (setA fs2 "temperature" (.num "0.7")) "max_tokens" (.num "1024") := by
      simp [injectDefaults, DEFAULT_PARAMS]
    rcases hkv with hkv | hkv <;> subst hkv
    · rw [hinj, lookupA_setA, lookupA_setA]
      simp
    · rw [hinj, lookupA_setA]
      simp
  · intro fs
    have hfold : ∀ l : List (String × JSON), injectDefaults l =
        setA (setA l "temperature" (.num "0.7")) "max_tokens" (.num "1024") := by
      intro l
      simp [injectDefaults, DEFAULT_PARAMS]
    have hA : lookupA (setA fs "temperature" (JSON.num "0.7")) "temperature"
        = some (.num "0.7") := by
      rw [lookupA_setA]
      simp
    rw [hfold fs, hfold]
    rw [← setA_comm_of_lookup "max_tokens" (.num "0.7") (.num "1024") hA (by decide)]
    rw [setA_setA_same, setA_setA_same]

/-- Witness for C6 at a body that tries to override "temperature". -/
theorem defaultParams_witness :
    (("temperature", JSON.num "0.7") ∈ DEFAULT_PARAMS) ∧
    lookupRoot (normalizeBody (.obj [("temperature", .num "1.5")])) "temperature"
      = some (.num "0.7") :=
  ⟨by simp [DEFAULT_PARAMS],
   defaultParams_present_and_idempotent.1 [("temperature", .num "1.5")]
     ("temperature", .num "0.7") (by simp [DEFAULT_PARAMS])⟩

/-! ## Claims C3, C4, C5, C7: handler-level behavior -/

/-- C3 counterexample: `/v1/unknown/path` is NOT rejected: it matches the
wildcard prefix `/v1/*` of the default configuration, is admitted, and the
handler forwards it, returning the upstream's response (here a 200)
instead of the 404 the claim asserts. -/
theorem unknownPath_admitted_counterexample :
    should_handle_path "/v1/unknown/path" = true ∧
    proxy (fun _ => .ok ⟨200, [], "ok", .ok .null⟩)
        ⟨"GET", "v1/unknown/path", [], "", .ok .null⟩
      = .ok ⟨200, [], "ok"⟩ ∧
    (200 : Nat) ≠ 404 := by
  refine ⟨rfl, rfl, by decide⟩

/-- C3 (amended): under the default configuration, `/v1/unknown/path`
matches the wildcard prefix `/v1/*` and is admitted (forwarded upstream);
a request whose path matches no allowed prefix, such as
`/status/health`, is rejected by admission with HTTP 404 and body
"Not handled by deepseek proxy". -/
theorem unknownPath_amended :
    should_handle_path "/v1/unknown/path" = true ∧
    ∀ (up : OutboundRequest → UpstreamOutcome) (m : String)
      (hs : List (String × String)) (d : String) (jp : Except PyExc JSON),
      proxy up ⟨m, "status/health", hs, d, jp⟩
        = .ok ⟨404, [], "Not handled by deepseek proxy"⟩ :=
  ⟨rfl, fun _ _ _ _ _ => rfl⟩

/-- C4: evaluating the handler at a failing input.  The body "not json"
does not parse; `json.loads` raises `json.JSONDecodeError`, which the
source's `except TypeError:` does not catch, so the handler aborts with
the uncaught exception (Flask turns this into an error page) instead of
forwarding the raw bytes as the claim (and the source's own "容错"
comment) promises. -/
theorem invalidBody_uncaught :
    proxy (fun _ => .ok ⟨200, [], "", .ok .null⟩)
        ⟨"POST", "v1/chat/completions", [("Content-Type", "text/plain")],
          "not json", .error (.otherError "Expecting value: line 1 column 1 (char 0)")⟩
      = .error (.otherError "Expecting value: line 1 column 1 (char 0)") := rfl

/-- C5: evaluating the handler at a failing input.  The upstream body
"\x7binvalid" starts with a brace, so the cleaning predicate holds and
`resp.json()` is called; it raises `json.JSONDecodeError`, which the
source's `except TypeError: pass` does not catch, so the handler aborts
instead of returning the original raw bytes as the claim (and the
source's own "忽略解析错误" comment) promises. -/
theorem invalidRespBody_uncaught :
    proxy (fun _ => .ok ⟨200, [("Content-Type", "application/json")], "\x7binvalid",
          .error (.otherError "Expecting value: line 1 column 2 (char 1)")⟩)
        ⟨"GET", "v1/models", [], "", .ok .null⟩
      = .error (.otherError "Expecting value: line 1 column 2 (char 1)") := rfl

/-- C7: for every admitted request whose body stage does not itself raise,
a transport exception in the outbound call makes the handler return HTTP
502 with a body carrying the error description ("Upstream request failed:
..."), a gateway failure rather than a client failure. -/
theorem transportFailure_502 (req : Request) (desc : String) (rb : Option JSON)
    (hadm : should_handle_path ("/" ++ req.path) = true)
    (hparse : parseBody req = .ok rb) :
    proxy (fun _ => .exc desc) req
      = .ok ⟨502, [], "Upstream request failed: " ++ desc⟩ := by
  simp [proxy, hadm, hparse]

/-- Witness for C7: an admitted request with an unreachable upstream. -/
theorem transportFailure_502_witness :
    proxy (fun _ => .exc "connection refused")
        ⟨"POST", "v1/chat/completions", [], "", .ok .null⟩
      = .ok ⟨502, [], "Upstream request failed: connection refused"⟩ :=
  transportFailure_502 ⟨"POST", "v1/chat/completions", [], "", .ok .null⟩
    "connection refused" none rfl rfl

/-! ## Claim C8: outbound headers and Authorization handling -/

/-- The value the copy loop of lines 244-247 leaves for a key `k` in the
outbound dict: the value of the last non-excluded inbound entry with that
exact name (later dict assignments overwrite earlier ones). -/
def lastVal (hs : List (String × String)) (k : String) : Option String :=
  match hs with
  | [] => none
  | kv :: rest =>
    match lastVal rest k with
    | some v => some v
    | none =>
      if !(excludedReqHeaders.contains (toLowerS kv.1)) && kv.1 == k then some kv.2
      else none

theorem foldl_copy_lookup (hs : List (String × String)) :
    ∀ (acc : List (String × String)) (k : String),
      lookupA (hs.foldl
          (fun acc kv =>
            if excludedReqHeaders.contains (toLowerS kv.1) then acc
            else setA acc kv.1 kv.2) acc) k
        = match lastVal hs k with
          | some v => some v
          | none => lookupA acc k := by
  induction hs with
  | nil => intro acc k; simp [lastVal]
  | cons kv rest ih =>
    intro acc k
    simp only [List.foldl_cons]
    rw [ih]
    by_cases hex : excludedReqHeaders.contains (toLowerS kv.1) = true
    · simp only [hex, if_pos, lastVal, Bool.not_true, Bool.false_and, if_neg]
      cases lastVal rest k <;> simp [hex]
    · have hex' : excludedReqHeaders.contains (toLowerS kv.1) = false :=
        Bool.not_eq_true _ ▸ eq_false_of_ne_true hex
      simp only [hex', if_neg, Bool.not_false, Bool.true_and, lastVal]
      cases hlv : lastVal rest k with
      | some v => simp
      | none =>
        rw [if_neg (by simp)]
        rw [lookupA_setA]
        by_cases hkk : kv.1 = k
        · simp [hkk]
        · have : (kv.1 == k) = false := by simp [hkk]
          simp [this, hkk]

theorem lookup_buildHeaders_auth (hs : List (String × String)) :
    lookupA (buildHeaders hs) "Authorization" = some ("Bearer " ++ DEEPSEEK_KEY) := by
  unfold buildHeaders
  rw [lookupA_setA]
  simp

theorem lookup_buildHeaders_ne (hs : List (String × String)) (k : String)
    (hk : ¬(k = "Authorization")) :
    lookupA (buildHeaders hs) k
      = match lastVal hs k with
        | some v => some v
        | none => none := by
  unfold buildHeaders
  rw [lookupA_setA]
  have : ("Authorization" == k) = false := by
    simp
    exact fun he => hk he.symm
  rw [this]
  simp only [Bool.false_eq_true, if_false]
  rw [foldl_copy_lookup]
  cases lastVal hs k <;> simp [lookupA]

theorem lastVal_eraseAll (hs : List (String × String)) (k key0 : String)
    (hk : ¬(k = key0)) :
    lastVal (eraseAllA hs key0) k = lastVal hs k := by
  induction hs with
  | nil => simp [eraseAllA, lastVal]
  | cons kv rest ih =>
    by_cases h0 : kv.1 = key0
    · have hdrop : eraseAllA (kv :: rest) key0 = eraseAllA rest key0 := by
        simp [eraseAllA, List.filter_cons, h0]
      rw [hdrop, ih]
      have : (kv.1 == k) = false := by
        rw [h0]
        simp
        exact fun he => hk he.symm
      simp only [lastVal, this, Bool.and_false, if_neg]
      cases lastVal rest k <;> simp
    · have hkeep : eraseAllA (kv :: rest) key0 = kv :: eraseAllA rest key0 := by
        simp [eraseAllA, List.filter_cons, h0]
      rw [hkeep]
      simp only [lastVal, ih]

theorem lastVal_none_of_no_key (hs : List (String × String)) (k : String)
    (h : ∀ kv ∈ hs, (kv.1 == k) = false) : lastVal hs k = none := by
  induction hs with
  | nil => simp [lastVal]
  | cons kv rest ih =>
    have hrest := ih fun kv0 hkv0 => h kv0 (List.mem_cons_of_mem kv hkv0)
    have hhead := h kv (List.mem_cons_self kv rest)
    simp [lastVal, hrest, hhead]

theorem lastVal_of_mem_nodup (hs : List (String × String)) (k : String) (v : String)
    (hnd : keysNodup hs = true) (hmem : (k, v) ∈ hs)
    (hexcl : excludedReqHeaders.contains (toLowerS k) = false) :
    lastVal hs k = some v := by
  induction hs with
  | nil => simp at hmem
  | cons kv rest ih =>
    simp only [keysNodup, List.map_cons, nodupKeys, Bool.and_eq_true,
      Bool.not_eq_true'] at hnd
    obtain ⟨hnc, hnd'⟩ := hnd
    rcases List.mem_cons.mp hmem with heq | hmem'
    · have hkk : kv = (k, v) := heq.symm
      subst hkk
      have hnone : lastVal rest k = none := by
        apply lastVal_none_of_no_key
        intro kv0 hkv0
        have : kv0.1 ∈ rest.map Prod.fst := List.mem_map_of_mem Prod.fst hkv0
        simp only [List.contains, List.elem_eq_mem, decide_eq_false_iff_not] at hnc
        simp only [beq_eq_false_iff_ne, ne_eq]
        intro he
        exact hnc (he ▸ this)
      have hexcl2 : toLowerS k ∉ excludedReqHeaders := by simpa using hexcl
      simp [lastVal, hnone, hexcl, hexcl2]
    · have : keysNodup rest = true := hnd'
      have hlv := ih this hmem'
      simp [lastVal, hlv]

/-- C8: for any two inbound requests differing only in their Authorization
header (or its presence), the outbound header dict is identical as a
mapping; its Authorization entry is always "Bearer " + the configured API
key; and every other non-excluded inbound header (for a request with
distinct header names) is copied through with its value unchanged. -/
theorem authHeader_noninterference (hs1 hs2 : List (String × String))
    (he : eraseAllA hs1 "Authorization" = eraseAllA hs2 "Authorization") :
    (∀ k, lookupA (buildHeaders hs1) k = lookupA (buildHeaders hs2) k) ∧
    lookupA (buildHeaders hs1) "Authorization" = some ("Bearer " ++ DEEPSEEK_KEY) ∧
    (∀ k v, keysNodup hs1 = true → (k, v) ∈ hs1 →
      excludedReqHeaders.contains (toLowerS k) = false → ¬(k = "Authorization") →
      lookupA (buildHeaders hs1) k = some v) := by
  refine ⟨?_, lookup_buildHeaders_auth hs1, ?_⟩
  · intro k
    by_cases hk : k = "Authorization"
    · subst hk
      rw [lookup_buildHeaders_auth, lookup_buildHeaders_auth]
    · rw [lookup_buildHeaders_ne hs1 k hk, lookup_buildHeaders_ne hs2 k hk]
      have h1 := lastVal_eraseAll hs1 k "Authorization" hk
      have h2 := lastVal_eraseAll hs2 k "Authorization" hk
      rw [← h1, ← h2, he]
  · intro k v hnd hmem hexcl hk
    rw [lookup_buildHeaders_ne hs1 k hk,
      lastVal_of_mem_nodup hs1 k v hnd hmem hexcl]

/-- Witness for C8: a request with a client Authorization header and one
without; the outbound dict agrees on "Accept" and forces the configured
bearer token. -/
theorem authHeader_noninterference_witness :
    eraseAllA [("Authorization", "Bearer client-secret"), ("Accept", "application/json")]
        "Authorization"
      = eraseAllA [("Accept", "application/json")] "Authorization" ∧
    lookupA (buildHeaders [("Authorization", "Bearer client-secret"),
        ("Accept", "application/json")]) "Accept"
      = lookupA (buildHeaders [("Accept", "application/json")]) "Accept" ∧
    lookupA (buildHeaders [("Authorization", "Bearer client-secret"),
        ("Accept", "application/json")]) "Authorization"
      = some ("Bearer " ++ DEEPSEEK_KEY) ∧
    lookupA (buildHeaders [("Authorization", "Bearer client-secret"),
        ("Accept", "application/json")]) "Accept"
      = some "application/json" := by
  have h := authHeader_noninterference
    [("Authorization", "Bearer client-secret"), ("Accept", "application/json")]
    [("Accept", "application/json")] rfl
  exact ⟨rfl, h.1 "Accept", h.2.1,
    h.2.2 "Accept" "application/json" rfl (by simp) rfl (by decide)⟩

/-! ## Claim C9: root-kind preservation -/

/-- C9: neither `remove_empty_tools_in_obj` nor
`flatten_message_content_in_messages` changes the kind of the value at
the root: an object stays an object, an array stays an array. -/
theorem transforms_preserve_root_kind (j : JSON) :
    kindOf (removeEmptyTools j).1 = kindOf j ∧
    kindOf (flattenMessages j).1 = kindOf j :=
  ⟨kind_removeEmptyTools j, kind_flattenMessages j⟩

/-! ## Claim C2: flattening message content -/

/-- C2 counterexample: a content array containing a plain string part.
The code appends the string itself ("plain"), not its JSON serialization
("\"plain\"") as the claim's "first string-typed field, falling back to a
JSON serialization" rule dictates for a part with no fields. -/
theorem flatten_string_part_counterexample :
    (flattenMessages (.obj [("messages",
        .arr [.obj [("content", .arr [.str "plain"])]])])).1
      = .obj [("messages", .arr [.obj [("content", .str "plain")]])] ∧
    dumps (.str "plain") = "\"plain\"" ∧
    ("plain" : String) ≠ "\"plain\"" :=
  ⟨rfl, rfl, by decide⟩

theorem flattenOneMsg_of_not_modified (m : JSON)
    (h : (flattenOneMsg m).2 = false) : (flattenOneMsg m).1 = m := by
  cases m <;> try rfl
  case obj mfs =>
    simp only [flattenOneMsg]
    cases hc : lookupA mfs "content" with
    | none => rfl
    | some c =>
      cases c <;> try rfl
      case arr cs =>
        cases cs with
        | nil => rfl
        | cons c0 cs' =>
          simp only [flattenOneMsg, hc] at h
          exact absurd h (by decide)
      case obj cfs =>
        simp only [flattenOneMsg, hc] at h ⊢
        cases hk : firstNonEmptyListKey cfs ["parts", "items", "segments"] with
        | none => rfl
        | some parts =>
          rw [hk] at h
          simp at h

/-- C2 (amended): for a root object whose "messages" entry is a list, the
transform maps `flattenOneMsg` over the messages and stores the result
back; a message-dict content that is a non-empty array is replaced by the
newline-join of, per part, `partPreferredText` (a string part contributes
itself; a dict part its first string-typed field among "text", "content",
"value", else its `json.dumps` serialization; any other part its
serialization); a content that is a plain string or an empty array is
left unchanged. -/
theorem flatten_content_characterization (fs : List (String × JSON)) (ms : List JSON)
    (hm : lookupA fs "messages" = some (.arr ms)) :
    ((flattenMessages (.obj fs)).1
       = .obj (setA fs "messages" (.arr (ms.map fun m => (flattenOneMsg m).1)))) ∧
    (∀ (mfs : List (String × JSON)) (cs : List JSON),
       lookupA mfs "content" = some (.arr cs) → cs ≠ [] →
       (flattenOneMsg (.obj mfs)).1
         = .obj (setA mfs "content"
             (.str (String.intercalate "\n" (cs.map partPreferredText))))) ∧
    (∀ (mfs : List (String × JSON)) (s : String),
       lookupA mfs "content" = some (.str s) →
       flattenOneMsg (.obj mfs) = (.obj mfs, false)) ∧
    (∀ mfs : List (String × JSON),
       lookupA mfs "content" = some (.arr []) →
       flattenOneMsg (.obj mfs) = (.obj mfs, false)) := by
  refine ⟨?_, ?_, ?_, ?_⟩
  · simp only [flattenMessages, hm]
    by_cases hany : (ms.map flattenOneMsg).any Prod.snd = true
    · simp only [hany, if_pos]
      simp only [List.map_map]
      rfl
    · have hf : (ms.map flattenOneMsg).any Prod.snd = false :=
        Bool.not_eq_true _ ▸ eq_false_of_ne_true hany
      simp only [hany, if_neg, Bool.false_eq_true, if_false]
      have hall : ∀ m ∈ ms, (flattenOneMsg m).1 = m := by
        intro m hmem
        apply flattenOneMsg_of_not_modified
        have := List.any_eq_false.mp hf (flattenOneMsg m) (List.mem_map_of_mem _ hmem)
        simpa using this
      have : ms.map (fun m => (flattenOneMsg m).1) = ms := by
        rw [List.map_congr_left hall]
        simp
      rw [this, setA_of_lookup_self hm]
  · intro mfs cs hc hcs
    cases cs with
    | nil => exact absurd rfl hcs
    | cons c0 cs' => simp [flattenOneMsg, hc]
  · intro mfs s hc
    simp [flattenOneMsg, hc]
  · intro mfs hc
    simp [flattenOneMsg, hc]

/-- Witness for C2 (amended) at the spec's own example:
content `[{"text": "a"}, {"text": "b"}]` flattens to "a\nb". -/
theorem flatten_content_witness :
    ((flattenMessages (.obj [("messages", .arr [.obj [("content",
        .arr [.obj [("text", .str "a")], .obj [("text", .str "b")]])]])])).1
      = .obj (setA [("messages", .arr [.obj [("content",
          .arr [.obj [("text", .str "a")], .obj [("text", .str "b")]])]])] "messages"
          (.arr ([JSON.obj [("content",
            .arr [.obj [("text", .str "a")], .obj [("text", .str "b")]])]].map
              fun m => (flattenOneMsg m).1)))) ∧
    String.intercalate "\n"
        ([JSON.obj [("text", .str "a")], JSON.obj [("text", .str "b")]].map
          partPreferredText)
      = "a\nb" ∧
    (flattenMessages (.obj [("messages", .arr [.obj [("content",
        .arr [.obj [("text", .str "a")], .obj [("text", .str "b")]])]])])).1
      = .obj [("messages", .arr [.obj [("content", .str "a\nb")]])] :=
  ⟨(flatten_content_characterization
      [("messages", .arr [.obj [("content",
        .arr [.obj [("text", .str "a")], .obj [("text", .str "b")]])]])]
      [JSON.obj [("content",
        .arr [.obj [("text", .str "a")], .obj [("text", .str "b")]])]] rfl).1,
   rfl, rfl⟩

/-! ## Infrastructure for claims C1 and C10 -/

/-- Whether an object's entry list has a top-level `"tools": []` binding. -/
def htb (l : List (String × JSON)) : Bool :=
  l.any fun kv => kv.1 == "tools" && isEmptyArr kv.2

/-- Whether any value of an object's entry list contains a `"tools": []`
entry somewhere. -/
def hetv (l : List (String × JSON)) : Bool :=
  l.any fun kv => hasET kv.2

theorem listAnyCongr {α : Type} {l : List α} {p q : α → Bool}
    (h : ∀ x ∈ l, p x = q x) : l.any p = l.any q := by
  induction l with
  | nil => rfl
  | cons x rest ih =>
    simp only [List.any_cons]
    rw [h x (List.mem_cons_self x rest),
      ih fun y hy => h y (List.mem_cons_of_mem x hy)]

theorem listAnyOrSplit {α : Type} (l : List α) (p q : α → Bool) :
    (l.any fun x => p x || q x) = (l.any p || l.any q) := by
  induction l with
  | nil => rfl
  | cons x rest ih =>
    simp only [List.any_cons, ih]
    cases p x <;> cases q x <;> simp

theorem listAnyMap {α β : Type} (l : List α) (f : α → β) (p : β → Bool) :
    (l.map f).any p = l.any fun x => p (f x) := by
  induction l with
  | nil => rfl
  | cons x rest ih => simp [List.any_cons, ih]

theorem listAllMap {α β : Type} (l : List α) (f : α → β) (p : β → Bool) :
    (l.map f).all p = l.all fun x => p (f x) := by
  induction l with
  | nil => rfl
  | cons x rest ih => simp [List.all_cons, ih]

theorem orShuffle (m a y b : Bool) :
    (m || (a || (y || b))) = (a || ((m || y) || b)) := by
  cases m <;> cases a <;> cases y <;> cases b <;> rfl

theorem jsz_pos (j : JSON) : 1 ≤ jsz j := by
  cases j <;> simp [jsz] <;> omega

theorem jsz_lt_of_mem_fields {fs : List (String × JSON)} {kv : String × JSON}
    (h : kv ∈ fs) : jsz kv.2 < jszF fs := by
  induction fs with
  | nil => simp at h
  | cons kv0 rest ih =>
    rcases List.mem_cons.mp h with he | hm
    · subst he
      obtain ⟨k, v⟩ := kv
      simp [jszF]
      omega
    · obtain ⟨k0, v0⟩ := kv0
      have := ih hm
      simp [jszF]
      omega

theorem jsz_lt_of_mem_list {xs : List JSON} {x : JSON} (h : x ∈ xs) :
    jsz x < jszL xs := by
  induction xs with
  | nil => simp at h
  | cons x0 rest ih =>
    rcases List.mem_cons.mp h with he | hm
    · subst he
      simp [jszL]
      omega
    · have := ih hm
      simp [jszL]
      omega

theorem jszF_eraseA (fs : List (String × JSON)) (key : String) :
    jszF (eraseA fs key) ≤ jszF fs := by
  induction fs with
  | nil => simp [eraseA]
  | cons kv rest ih =>
    obtain ⟨k, v⟩ := kv
    by_cases hk : k = key
    · simp [eraseA, hk, jszF]
      try omega
    · simp [eraseA, hk, jszF]
      try omega

theorem jszF_setA_le {fs : List (String × JSON)} {key : String} {v : JSON}
    (w : JSON) (h : lookupA fs key = some v) (hw : jsz w ≤ jsz v) :
    jszF (setA fs key w) ≤ jszF fs := by
  induction fs with
  | nil => simp [lookupA] at h
  | cons kv rest ih =>
    obtain ⟨k, v0⟩ := kv
    by_cases hk : k = key
    · simp [lookupA, hk] at h
      subst h
      simp [setA, hk, jszF]
      omega
    · simp [lookupA, hk] at h
      have := ih h
      simp [setA, hk, jszF]
      omega

theorem jszF_fixMessage (cfs : List (String × JSON)) :
    jszF (fixMessage cfs).1 ≤ jszF cfs := by
  unfold fixMessage
  cases hm : lookupA cfs "message" with
  | none => simp
  | some m =>
    cases m <;> try simp
    case obj mfs =>
      cases ht : lookupA mfs "tools" with
      | none => simp
      | some t =>
        cases t <;> try simp
        case arr ts =>
          cases ts with
          | cons t0 ts' => simp
          | nil =>
            simp only []
            apply jszF_setA_le _ hm
            simp [jsz]
            have := jszF_eraseA mfs "tools"
            omega

theorem jsz_fixChoice (c : JSON) : jsz (fixChoice c).1 ≤ jsz c := by
  cases c <;> try simp [fixChoice]
  case obj cfs =>
    have hm := jszF_fixMessage cfs
    cases ht : lookupA (fixMessage cfs).1 "tools" with
    | none =>
      simp [fixChoice, ht, jsz]
      omega
    | some t =>
      cases t <;> try (simp [fixChoice, ht, jsz]; omega)
      case arr ts =>
        cases ts with
        | cons t0 ts' =>
          simp [fixChoice, ht, jsz]
          omega
        | nil =>
          simp [fixChoice, ht, jsz]
          have := jszF_eraseA (fixMessage cfs).1 "tools"
          omega

theorem jszL_map_fixChoice (cs : List JSON) :
    jszL (cs.map fun c => (fixChoice c).1) ≤ jszL cs := by
  induction cs with
  | nil => simp [jszL]
  | cons c rest ih =>
    have := jsz_fixChoice c
    simp [jszL]
    omega

theorem jszF_step1 (fs : List (String × JSON)) : jszF (step1 fs).1 ≤ jszF fs := by
  unfold step1
  cases ht : lookupA fs "tools" with
  | none => simp
  | some t =>
    cases t <;> try simp
    case arr ts =>
      cases ts with
      | cons t0 ts' => simp
      | nil =>
        simp only []
        exact jszF_eraseA fs "tools"

theorem jszF_step2 (fs : List (String × JSON)) : jszF (step2 fs).1 ≤ jszF fs := by
  unfold step2
  cases hc : lookupA fs "choices" with
  | none => simp
  | some c =>
    cases c <;> try simp
    case arr cs =>
      apply jszF_setA_le _ hc
      simp only [jsz, List.map_map]
      have : jszL (cs.map fun c => (fixChoice c).1) ≤ jszL cs := jszL_map_fixChoice cs
      have he : cs.map (Prod.fst ∘ fixChoice) = cs.map fun c => (fixChoice c).1 := rfl
      rw [he]
      omega

/-! ## Conversion lemmas for the mutual recursions -/

theorem stripList_eq_map (xs : List JSON) : stripList xs = xs.map stripSpec := by
  induction xs with
  | nil => rfl
  | cons x rest ih => simp [stripList, ih]

theorem stripFields_append (l1 l2 : List (String × JSON)) :
    stripFields (l1 ++ l2) = stripFields l1 ++ stripFields l2 := by
  induction l1 with
  | nil => rfl
  | cons kv rest ih =>
    obtain ⟨k, v⟩ := kv
    by_cases h : (k == "tools" && isEmptyArr v) = true
    · simp [stripFields, h, ih]
    · have h' := eq_false_of_ne_true h
      simp [stripFields, h', ih]

theorem hasETList_eq_any (xs : List JSON) : hasETList xs = xs.any hasET := by
  induction xs with
  | nil => rfl
  | cons x rest ih => simp [hasETList, ih]

theorem hasETFields_eq (l : List (String × JSON)) :
    hasETFields l = (htb l || hetv l) := by
  induction l with
  | nil => rfl
  | cons kv rest ih =>
    simp only [hasETFields, ih, htb, hetv, List.any_cons]
    cases (kv.1 == "tools" && isEmptyArr kv.2) <;> cases hasET kv.2 <;> simp

theorem jwfFields_eq_all (l : List (String × JSON)) :
    jwfFields l = l.all fun kv => jwf kv.2 := by
  induction l with
  | nil => rfl
  | cons kv rest ih => simp [jwfFields, ih]

theorem jwfList_eq_all (xs : List JSON) : jwfList xs = xs.all jwf := by
  induction xs with
  | nil => rfl
  | cons x rest ih => simp [jwfList, ih]

theorem stripSpec_not_container {j : JSON} (h : isContainer j = false) :
    stripSpec j = j := by
  cases j <;> first | rfl | simp [isContainer] at h

theorem hasET_not_container {j : JSON} (h : isContainer j = false) :
    hasET j = false := by
  cases j <;> first | rfl | simp [isContainer] at h

theorem jwf_obj_iff (fs : List (String × JSON)) :
    jwf (.obj fs) = true ↔ (keysNodup fs = true ∧ jwfFields fs = true) := by
  simp [jwf, Bool.and_eq_true]

/-! ## Behavior of the special-cased phases on the spec-side functions -/

theorem stripFields_eraseA_tools {fs : List (String × JSON)}
    (h : lookupA fs "tools" = some (.arr [])) :
    stripFields (eraseA fs "tools") = stripFields fs := by
  obtain ⟨pre, k0, post, hbeq, _, hl, herase, _⟩ := split_of_lookup h
  rw [herase, hl, stripFields_append, stripFields_append]
  have : stripFields ((k0, JSON.arr []) :: post) = stripFields post := by
    have hcond : (k0 == "tools" && isEmptyArr (.arr [])) = true := by
      simp [isEmptyArr, hbeq]
    simp [stripFields, hcond]
  rw [this]

theorem htb_true_of_tools {fs : List (String × JSON)}
    (h : lookupA fs "tools" = some (.arr [])) : htb fs = true := by
  obtain ⟨pre, k0, post, hbeq, _, hl, _, _⟩ := split_of_lookup h
  rw [hl]
  simp [htb, List.any_append, List.any_cons, isEmptyArr, hbeq]

theorem hetv_eraseA_tools {fs : List (String × JSON)}
    (h : lookupA fs "tools" = some (.arr [])) :
    hetv (eraseA fs "tools") = hetv fs := by
  obtain ⟨pre, k0, post, _, _, hl, herase, _⟩ := split_of_lookup h
  rw [herase, hl]
  have : hasET (.arr []) = false := rfl
  simp [hetv, List.any_append, List.any_cons, this]

theorem fixMessage_modified {cfs : List (String × JSON)}
    (h : (fixMessage cfs).2 = true) :
    ∃ mfs, lookupA cfs "message" = some (.obj mfs) ∧
      lookupA mfs "tools" = some (.arr []) ∧
      (fixMessage cfs).1 = setA cfs "message" (.obj (eraseA mfs "tools")) := by
  cases hm : lookupA cfs "message" with
  | none => exact absurd h (by simp [fixMessage, hm])
  | some m =>
    cases m with
    | null => exact absurd h (by simp [fixMessage, hm])
    | bool b => exact absurd h (by simp [fixMessage, hm])
    | num lit => exact absurd h (by simp [fixMessage, hm])
    | str s => exact absurd h (by simp [fixMessage, hm])
    | arr xs => exact absurd h (by simp [fixMessage, hm])
    | obj mfs =>
      cases ht : lookupA mfs "tools" with
      | none => exact absurd h (by simp [fixMessage, hm, ht])
      | some t =>
        cases t with
        | null => exact absurd h (by simp [fixMessage, hm, ht])
        | bool b => exact absurd h (by simp [fixMessage, hm, ht])
        | num lit => exact absurd h (by simp [fixMessage, hm, ht])
        | str s => exact absurd h (by simp [fixMessage, hm, ht])
        | obj ofs => exact absurd h (by simp [fixMessage, hm, ht])
        | arr ts =>
          cases ts with
          | cons t0 ts' => exact absurd h (by simp [fixMessage, hm, ht])
          | nil => exact ⟨mfs, rfl, ht, by simp [fixMessage, hm, ht]⟩

theorem fixMessage_not_modified {cfs : List (String × JSON)}
    (h : (fixMessage cfs).2 = false) : (fixMessage cfs).1 = cfs := by
  cases hm : lookupA cfs "message" with
  | none => simp [fixMessage, hm]
  | some m =>
    cases m with
    | null => simp [fixMessage, hm]
    | bool b => simp [fixMessage, hm]
    | num lit => simp [fixMessage, hm]
    | str s => simp [fixMessage, hm]
    | arr xs => simp [fixMessage, hm]
    | obj mfs =>
      cases ht : lookupA mfs "tools" with
      | none => simp [fixMessage, hm, ht]
      | some t =>
        cases t with
        | null => simp [fixMessage, hm, ht]
        | bool b => simp [fixMessage, hm, ht]
        | num lit => simp [fixMessage, hm, ht]
        | str s => simp [fixMessage, hm, ht]
        | obj ofs => simp [fixMessage, hm, ht]
        | arr ts =>
          cases ts with
          | cons t0 ts' => simp [fixMessage, hm, ht]
          | nil => exact absurd h (by simp [fixMessage, hm, ht])

theorem hetv_true_of_message {cfs mfs : List (String × JSON)}
    (hm : lookupA cfs "message" = some (.obj mfs))
    (ht : lookupA mfs "tools" = some (.arr [])) : hetv cfs = true := by
  obtain ⟨pre, k0, post, _, _, hl, _, _⟩ := split_of_lookup hm
  rw [hl]
  have : hasET (.obj mfs) = true := by
    show hasETFields mfs = true
    rw [hasETFields_eq, htb_true_of_tools ht]
    rfl
  simp [hetv, List.any_append, List.any_cons, this]

theorem stripFields_fixMessage (cfs : List (String × JSON)) :
    stripFields (fixMessage cfs).1 = stripFields cfs := by
  by_cases h : (fixMessage cfs).2 = true
  · obtain ⟨mfs, hm, ht, heq⟩ := fixMessage_modified h
    rw [heq]
    obtain ⟨pre, k0, post, hbeq, _, hl, _, hset⟩ := split_of_lookup hm
    rw [hset, hl, stripFields_append, stripFields_append]
    have hk0 : (k0 == "tools") = false := by
      have : k0 = "message" := by simpa using hbeq
      simp [this]
    have hmid : ∀ m : JSON, stripFields ((k0, m) :: post)
        = (k0, stripSpec m) :: stripFields post := by
      intro m
      simp [stripFields, hk0]
    rw [hmid, hmid]
    have : stripSpec (.obj (eraseA mfs "tools")) = stripSpec (.obj mfs) := by
      show JSON.obj (stripFields (eraseA mfs "tools")) = JSON.obj (stripFields mfs)
      rw [stripFields_eraseA_tools ht]
    rw [this]
  · have h' : (fixMessage cfs).2 = false := eq_false_of_ne_true h
    rw [fixMessage_not_modified h']

/-- One-shot case analysis of `fixChoice` on a dict choice. -/
theorem fixChoice_obj_cases (cfs : List (String × JSON)) :
    (lookupA (fixMessage cfs).1 "tools" = some (.arr []) ∧
      fixChoice (.obj cfs)
        = (.obj (eraseA (fixMessage cfs).1 "tools"), (fixMessage cfs).2 || true)) ∨
    (¬(lookupA (fixMessage cfs).1 "tools" = some (.arr [])) ∧
      fixChoice (.obj cfs) = (.obj (fixMessage cfs).1, (fixMessage cfs).2 || false)) := by
  cases ht : lookupA (fixMessage cfs).1 "tools" with
  | none => exact Or.inr ⟨by simp [ht], by simp [fixChoice, ht]⟩
  | some t =>
    cases t with
    | null => exact Or.inr ⟨by simp [ht], by simp [fixChoice, ht]⟩
    | bool b => exact Or.inr ⟨by simp [ht], by simp [fixChoice, ht]⟩
    | num lit => exact Or.inr ⟨by simp [ht], by simp [fixChoice, ht]⟩
    | str s => exact Or.inr ⟨by simp [ht], by simp [fixChoice, ht]⟩
    | obj ofs => exact Or.inr ⟨by simp [ht], by simp [fixChoice, ht]⟩
    | arr ts =>
      cases ts with
      | cons t0 ts' => exact Or.inr ⟨by simp [ht], by simp [fixChoice, ht]⟩
      | nil => exact Or.inl ⟨rfl, by simp [fixChoice, ht]⟩

/-- One-shot case analysis of `step1`. -/
theorem step1_cases (fs : List (String × JSON)) :
    (lookupA fs "tools" = some (.arr []) ∧ step1 fs = (eraseA fs "tools", true)) ∨
    (¬(lookupA fs "tools" = some (.arr [])) ∧ step1 fs = (fs, false)) := by
  cases ht : lookupA fs "tools" with
  | none => exact Or.inr ⟨by simp [ht], by simp [step1, ht]⟩
  | some t =>
    cases t with
    | null => exact Or.inr ⟨by simp [ht], by simp [step1, ht]⟩
    | bool b => exact Or.inr ⟨by simp [ht], by simp [step1, ht]⟩
    | num lit => exact Or.inr ⟨by simp [ht], by simp [step1, ht]⟩
    | str s => exact Or.inr ⟨by simp [ht], by simp [step1, ht]⟩
    | obj ofs => exact Or.inr ⟨by simp [ht], by simp [step1, ht]⟩
    | arr ts =>
      cases ts with
      | cons t0 ts' => exact Or.inr ⟨by simp [ht], by simp [step1, ht]⟩
      | nil => exact Or.inl ⟨rfl, by simp [step1, ht]⟩

/-- One-shot case analysis of `step2`. -/
theorem step2_cases (fs : List (String × JSON)) :
    (∃ cs, lookupA fs "choices" = some (.arr cs) ∧
      step2 fs = (setA fs "choices" (.arr (cs.map fun c => (fixChoice c).1)),
        cs.any fun c => (fixChoice c).2)) ∨
    ((∀ cs, ¬(lookupA fs "choices" = some (.arr cs))) ∧ step2 fs = (fs, false)) := by
  cases hc : lookupA fs "choices" with
  | none => exact Or.inr ⟨by simp [hc], by simp [step2, hc]⟩
  | some c =>
    cases c with
    | null => exact Or.inr ⟨by simp [hc], by simp [step2, hc]⟩
    | bool b => exact Or.inr ⟨by simp [hc], by simp [step2, hc]⟩
    | num lit => exact Or.inr ⟨by simp [hc], by simp [step2, hc]⟩
    | str s => exact Or.inr ⟨by simp [hc], by simp [step2, hc]⟩
    | obj ofs => exact Or.inr ⟨by simp [hc], by simp [step2, hc]⟩
    | arr cs =>
      refine Or.inl ⟨cs, rfl, ?_⟩
      simp only [step2, hc, List.map_map, Prod.mk.injEq]
      constructor
      · rfl
      · rw [listAnyMap]

theorem stripSpec_fixChoice (c : JSON) : stripSpec (fixChoice c).1 = stripSpec c := by
  cases c <;> try rfl
  case obj cfs =>
    rcases fixChoice_obj_cases cfs with ⟨ht, heq⟩ | ⟨ht, heq⟩
    · rw [heq]
      show JSON.obj (stripFields (eraseA (fixMessage cfs).1 "tools"))
        = JSON.obj (stripFields cfs)
      rw [stripFields_eraseA_tools ht, stripFields_fixMessage]
    · rw [heq]
      show JSON.obj (stripFields (fixMessage cfs).1) = JSON.obj (stripFields cfs)
      rw [stripFields_fixMessage]

theorem fixChoice_flag (c : JSON) :
    ((fixChoice c).2 || hasET (fixChoice c).1) = hasET c := by
  cases c <;> try rfl
  case obj cfs =>
    rcases fixChoice_obj_cases cfs with ⟨ht, heq⟩ | ⟨ht, heq⟩
    · rw [heq]
      simp only [Bool.or_true, Bool.true_or]
      symm
      show hasETFields cfs = true
      by_cases hfm : (fixMessage cfs).2 = true
      · obtain ⟨mfs, hm, hmt, _⟩ := fixMessage_modified hfm
        rw [hasETFields_eq, hetv_true_of_message hm hmt]
        simp
      · have hfm' : (fixMessage cfs).2 = false := eq_false_of_ne_true hfm
        have := fixMessage_not_modified hfm'
        rw [this] at ht
        rw [hasETFields_eq, htb_true_of_tools ht]
        rfl
    · rw [heq]
      by_cases hfm : (fixMessage cfs).2 = true
      · obtain ⟨mfs, hm, hmt, _⟩ := fixMessage_modified hfm
        have hc : hasET (.obj cfs) = true := by
          show hasETFields cfs = true
          rw [hasETFields_eq, hetv_true_of_message hm hmt]
          simp
        rw [hc, hfm]
        rfl
      · have hfm' : (fixMessage cfs).2 = false := eq_false_of_ne_true hfm
        rw [hfm', fixMessage_not_modified hfm']
        rfl

theorem stripFields_step1 (fs : List (String × JSON)) :
    stripFields (step1 fs).1 = stripFields fs := by
  rcases step1_cases fs with ⟨ht, heq⟩ | ⟨_, heq⟩
  · rw [heq]
    exact stripFields_eraseA_tools ht
  · rw [heq]

theorem stripFields_step2 (fs : List (String × JSON)) :
    stripFields (step2 fs).1 = stripFields fs := by
  rcases step2_cases fs with ⟨cs, hc, heq⟩ | ⟨_, heq⟩
  · rw [heq]
    obtain ⟨pre, k0, post, hbeq, _, hl, _, hset⟩ := split_of_lookup hc
    rw [hset, hl, stripFields_append, stripFields_append]
    have hk0 : (k0 == "tools") = false := by
      have : k0 = "choices" := by simpa using hbeq
      simp [this]
    have hmid : ∀ m : JSON, stripFields ((k0, m) :: post)
        = (k0, stripSpec m) :: stripFields post := by
      intro m
      simp [stripFields, hk0]
    rw [hmid, hmid]
    have : stripSpec (.arr (cs.map fun c => (fixChoice c).1)) = stripSpec (.arr cs) := by
      show JSON.arr (stripList (cs.map fun c => (fixChoice c).1))
        = JSON.arr (stripList cs)
      rw [stripList_eq_map, stripList_eq_map, List.map_map]
      congr 1
      exact List.map_congr_left fun c _ => stripSpec_fixChoice c
    rw [this]
  · rw [heq]

theorem hetv_step1 (fs : List (String × JSON)) : hetv (step1 fs).1 = hetv fs := by
  rcases step1_cases fs with ⟨ht, heq⟩ | ⟨_, heq⟩
  · rw [heq]
    exact hetv_eraseA_tools ht
  · rw [heq]

theorem hetv_step2 (fs : List (String × JSON)) :
    ((step2 fs).2 || hetv (step2 fs).1) = hetv fs := by
  rcases step2_cases fs with ⟨cs, hc, heq⟩ | ⟨_, heq⟩
  · rw [heq]
    obtain ⟨pre, k0, post, _, _, hl, _, hset⟩ := split_of_lookup hc
    rw [hset, hl]
    simp only [hetv, List.any_append, List.any_cons]
    have hkey : ((cs.any fun c => (fixChoice c).2)
        || hasET (.arr (cs.map fun c => (fixChoice c).1))) = hasET (.arr cs) := by
      show ((cs.any fun c => (fixChoice c).2)
        || hasETList (cs.map fun c => (fixChoice c).1)) = hasETList cs
      rw [hasETList_eq_any, hasETList_eq_any, listAnyMap, ← listAnyOrSplit]
      exact listAnyCongr fun c _ => fixChoice_flag c
    rw [← hkey]
    exact orShuffle _ _ _ _
  · rw [heq]
    simp

/-! ## Key-uniqueness machinery -/

theorem nodupKeys_iff (ks : List String) : nodupKeys ks = true ↔ ks.Nodup := by
  induction ks with
  | nil => simp [nodupKeys]
  | cons k rest ih =>
    simp only [nodupKeys, Bool.and_eq_true, Bool.not_eq_true', List.nodup_cons]
    rw [ih]
    constructor
    · rintro ⟨hc, hn⟩
      refine ⟨?_, hn⟩
      intro hmem
      simp [List.contains, List.elem_eq_mem, hmem] at hc
    · rintro ⟨hm, hn⟩
      refine ⟨?_, hn⟩
      simp [List.contains, List.elem_eq_mem, hm]

theorem keysNodup_iff {α : Type} (l : List (String × α)) :
    keysNodup l = true ↔ (l.map Prod.fst).Nodup :=
  nodupKeys_iff _

theorem isEmptyArr_eq_false {v : JSON} (h : ¬(v = .arr [])) : isEmptyArr v = false := by
  cases v <;> try rfl
  case arr xs =>
    cases xs with
    | nil => exact absurd rfl h
    | cons x rest => rfl

theorem no_tools_key_any {fs : List (String × JSON)}
    (h : ∀ kv ∈ fs, (kv.1 == "tools") = false) : htb fs = false := by
  rw [htb, List.any_eq_false]
  intro kv hkv
  simp [h kv hkv]

theorem htb_false_of_nodup {fs : List (String × JSON)}
    (hnd : keysNodup fs = true) (h : ¬(lookupA fs "tools" = some (.arr []))) :
    htb fs = false := by
  cases hlt : lookupA fs "tools" with
  | none => exact no_tools_key_any (lookupA_none_mem fs "tools" hlt)
  | some v =>
    have hv : ¬(v = .arr []) := fun he => h (he ▸ hlt)
    obtain ⟨pre, k0, post, hbeq, hpre, hl, _, _⟩ := split_of_lookup hlt
    have hpost : ∀ kv ∈ post, (kv.1 == "tools") = false := by
      have hnd' := (keysNodup_iff fs).mp hnd
      rw [hl] at hnd'
      simp only [List.map_append, List.map_cons] at hnd'
      have h2 := (List.nodup_append.mp hnd').2.1
      have h3 := (List.nodup_cons.mp h2).1
      intro kv hkv
      have hk0 : k0 = "tools" := by simpa using hbeq
      simp only [beq_eq_false_iff_ne, ne_eq]
      intro he
      exact h3 (hk0 ▸ he ▸ List.mem_map_of_mem Prod.fst hkv)
    rw [hl, htb, List.any_append, List.any_cons]
    have h1 : htb pre = false := no_tools_key_any hpre
    rw [htb] at h1
    rw [h1]
    have h2 : htb post = false := no_tools_key_any hpost
    rw [htb] at h2
    rw [h2]
    simp [isEmptyArr_eq_false hv]

theorem htb_step1_false {fs : List (String × JSON)}
    (hnd : keysNodup fs = true) : htb (step1 fs).1 = false := by
  rcases step1_cases fs with ⟨ht, heq⟩ | ⟨ht, heq⟩
  · rw [heq]
    obtain ⟨pre, k0, post, hbeq, hpre, hl, herase, _⟩ := split_of_lookup ht
    rw [herase]
    have hpost : ∀ kv ∈ post, (kv.1 == "tools") = false := by
      have hnd' := (keysNodup_iff fs).mp hnd
      rw [hl] at hnd'
      simp only [List.map_append, List.map_cons] at hnd'
      have h2 := (List.nodup_append.mp hnd').2.1
      have h3 := (List.nodup_cons.mp h2).1
      intro kv hkv
      have hk0 : k0 = "tools" := by simpa using hbeq
      simp only [beq_eq_false_iff_ne, ne_eq]
      intro he
      exact h3 (hk0 ▸ he ▸ List.mem_map_of_mem Prod.fst hkv)
    apply no_tools_key_any
    intro kv hkv
    rcases List.mem_append.mp hkv with hm | hm
    · exact hpre kv hm
    · exact hpost kv hm
  · rw [heq]
    exact htb_false_of_nodup hnd ht

theorem htb_step2_of {fs : List (String × JSON)} (h : htb fs = false) :
    htb (step2 fs).1 = false := by
  rcases step2_cases fs with ⟨cs, hc, heq⟩ | ⟨_, heq⟩
  · rw [heq]
    obtain ⟨pre, k0, post, hbeq, _, hl, _, hset⟩ := split_of_lookup hc
    rw [hset]
    rw [hl] at h
    simp only [htb, List.any_append, List.any_cons, Bool.or_eq_false_iff] at h ⊢
    refine ⟨h.1, ?_, h.2.2⟩
    have hk0 : (k0 == "tools") = false := by
      have : k0 = "choices" := by simpa using hbeq
      simp [this]
    simp [hk0]
  · rw [heq]
    exact h

theorem map_strip_eq_stripFields {l : List (String × JSON)} (h : htb l = false) :
    l.map (fun kv => (kv.1, stripSpec kv.2)) = stripFields l := by
  induction l with
  | nil => rfl
  | cons kv rest ih =>
    obtain ⟨k, v⟩ := kv
    simp only [htb, List.any_cons, Bool.or_eq_false_iff] at h
    obtain ⟨h1, h2⟩ := h
    have hsf : stripFields ((k, v) :: rest) = (k, stripSpec v) :: stripFields rest := by
      simp [stripFields, h1]
    rw [List.map_cons, hsf, ih (show htb rest = false from h2)]

theorem flag1_hetv {fs : List (String × JSON)} (hnd : keysNodup fs = true) :
    ((step1 fs).2 || hetv (step1 fs).1) = hasETFields fs := by
  rw [hasETFields_eq]
  rcases step1_cases fs with ⟨ht, heq⟩ | ⟨ht, heq⟩
  · rw [heq]
    simp only [Bool.true_or]
    rw [htb_true_of_tools ht]
    simp
  · rw [heq]
    simp only [Bool.false_or]
    rw [htb_false_of_nodup hnd ht]
    simp

theorem goalA {fs : List (String × JSON)} (hnd : keysNodup fs = true) :
    (step2 (step1 fs).1).1.map (fun kv => (kv.1, stripSpec kv.2)) = stripFields fs := by
  rw [map_strip_eq_stripFields (htb_step2_of (htb_step1_false hnd)),
    stripFields_step2, stripFields_step1]

theorem goalB {fs : List (String × JSON)} (hnd : keysNodup fs = true) :
    ((step1 fs).2 || ((step2 (step1 fs).1).2 || hetv (step2 (step1 fs).1).1))
      = hasETFields fs := by
  rw [hetv_step2, flag1_hetv hnd]

/-! ## Membership and well-formedness preservation -/

theorem mem_eraseA {α : Type} {l : List (String × α)} {key : String} {kv : String × α}
    (h : kv ∈ eraseA l key) : kv ∈ l := by
  induction l with
  | nil => simp [eraseA] at h
  | cons kv0 rest ih =>
    obtain ⟨k0, v0⟩ := kv0
    by_cases hk : k0 = key
    · simp only [eraseA, hk, if_pos, beq_self_eq_true] at h
      exact List.mem_cons_of_mem _ h
    · have : (k0 == key) = false := by simp [hk]
      simp only [eraseA, this, Bool.false_eq_true, if_false] at h
      rcases List.mem_cons.mp h with he | hm
      · exact he ▸ List.mem_cons_self _ _
      · exact List.mem_cons_of_mem _ (ih hm)

theorem mem_setA {α : Type} {l : List (String × α)} {key : String} {w : α}
    {kv : String × α} (h : kv ∈ setA l key w) : kv ∈ l ∨ kv.2 = w := by
  induction l with
  | nil =>
    simp [setA] at h
    exact Or.inr (by simp [h])
  | cons kv0 rest ih =>
    obtain ⟨k0, v0⟩ := kv0
    by_cases hk : k0 = key
    · simp only [setA, hk, if_pos, beq_self_eq_true] at h
      rcases List.mem_cons.mp h with he | hm
      · exact Or.inr (by simp [he])
      · exact Or.inl (List.mem_cons_of_mem _ hm)
    · have : (k0 == key) = false := by simp [hk]
      simp only [setA, this, Bool.false_eq_true, if_false] at h
      rcases List.mem_cons.mp h with he | hm
      · exact Or.inl (he ▸ List.mem_cons_self _ _)
      · rcases ih hm with hin | hw
        · exact Or.inl (List.mem_cons_of_mem _ hin)
        · exact Or.inr hw

theorem lookup_mem {α : Type} {l : List (String × α)} {key : String} {v : α}
    (h : lookupA l key = some v) : ∃ k0, (k0 == key) = true ∧ (k0, v) ∈ l := by
  obtain ⟨pre, k0, post, hbeq, _, hl, _, _⟩ := split_of_lookup h
  exact ⟨k0, hbeq, by rw [hl]; simp⟩

theorem jwf_of_fields {l : List (String × JSON)} {kv : String × JSON}
    (h : jwfFields l = true) (hm : kv ∈ l) : jwf kv.2 = true := by
  rw [jwfFields_eq_all, List.all_eq_true] at h
  exact h kv hm

theorem jwf_of_list {xs : List JSON} {x : JSON}
    (h : jwfList xs = true) (hm : x ∈ xs) : jwf x = true := by
  rw [jwfList_eq_all, List.all_eq_true] at h
  exact h x hm

theorem keysNodup_eraseA {α : Type} {l : List (String × α)} (key : String)
    (h : keysNodup l = true) : keysNodup (eraseA l key) = true := by
  cases hlk : lookupA l key with
  | none => rw [eraseA_of_lookup_none l key hlk]; exact h
  | some v =>
    obtain ⟨pre, k0, post, _, _, hl, herase, _⟩ := split_of_lookup hlk
    rw [keysNodup_iff] at h ⊢
    rw [herase]
    rw [hl] at h
    simp only [List.map_append, List.map_cons] at h ⊢
    have hsub : List.Sublist (pre.map Prod.fst ++ post.map Prod.fst)
        (pre.map Prod.fst ++ k0 :: post.map Prod.fst) :=
      List.Sublist.append (List.Sublist.refl _) (List.sublist_cons_self _ _)
    exact List.Nodup.sublist hsub h

theorem keysNodup_setA_of_lookup {α : Type} {l : List (String × α)} {key : String}
    {v : α} (w : α) (hlk : lookupA l key = some v) (h : keysNodup l = true) :
    keysNodup (setA l key w) = true := by
  obtain ⟨pre, k0, post, _, _, hl, _, hset⟩ := split_of_lookup hlk
  rw [hset w]
  rw [hl] at h
  unfold keysNodup at h ⊢
  have : (pre ++ (k0, w) :: post).map Prod.fst = (pre ++ (k0, v) :: post).map Prod.fst := by
    simp [List.map_append]
  rw [this]
  exact h

theorem jwfFields_append (l1 l2 : List (String × JSON)) :
    jwfFields (l1 ++ l2) = (jwfFields l1 && jwfFields l2) := by
  induction l1 with
  | nil => rfl
  | cons kv rest ih =>
    obtain ⟨k, v⟩ := kv
    simp [jwfFields, ih, Bool.and_assoc]

theorem jwfFields_eraseA {l : List (String × JSON)} (key : String)
    (h : jwfFields l = true) : jwfFields (eraseA l key) = true := by
  cases hlk : lookupA l key with
  | none => rw [eraseA_of_lookup_none l key hlk]; exact h
  | some v =>
    obtain ⟨pre, k0, post, _, _, hl, herase, _⟩ := split_of_lookup hlk
    rw [herase]
    rw [hl] at h
    rw [jwfFields_append] at h ⊢
    simp only [Bool.and_eq_true] at h ⊢
    refine ⟨h.1, ?_⟩
    have h2 := h.2
    simp only [jwfFields, Bool.and_eq_true] at h2
    exact h2.2

theorem jwfFields_setA_of_lookup {l : List (String × JSON)} {key : String}
    {v : JSON} (w : JSON) (hlk : lookupA l key = some v)
    (h : jwfFields l = true) (hw : jwf w = true) :
    jwfFields (setA l key w) = true := by
  obtain ⟨pre, k0, post, _, _, hl, _, hset⟩ := split_of_lookup hlk
  rw [hset w]
  rw [hl] at h
  rw [jwfFields_append] at h ⊢
  simp only [Bool.and_eq_true] at h ⊢
  refine ⟨h.1, ?_⟩
  have h2 := h.2
  simp only [jwfFields, Bool.and_eq_true] at h2 ⊢
  exact ⟨hw, h2.2⟩

theorem jwf_fixChoice {c : JSON} (h : jwf c = true) : jwf (fixChoice c).1 = true := by
  cases c <;> try exact h
  case obj cfs =>
    obtain ⟨hnd, hflds⟩ := (jwf_obj_iff cfs).mp h
    have hrm : keysNodup (fixMessage cfs).1 = true ∧ jwfFields (fixMessage cfs).1 = true := by
      by_cases hfm : (fixMessage cfs).2 = true
      · obtain ⟨mfs, hm, hmt, heq⟩ := fixMessage_modified hfm
        obtain ⟨k0, hbeq, hmem⟩ := lookup_mem hm
        have hwfm : jwf (.obj mfs) = true := jwf_of_fields hflds hmem
        obtain ⟨hndm, hfldm⟩ := (jwf_obj_iff mfs).mp hwfm
        have hwfe : jwf (.obj (eraseA mfs "tools")) = true :=
          (jwf_obj_iff _).mpr ⟨keysNodup_eraseA "tools" hndm, jwfFields_eraseA "tools" hfldm⟩
        rw [heq]
        exact ⟨keysNodup_setA_of_lookup _ hm hnd,
          jwfFields_setA_of_lookup _ hm hflds hwfe⟩
      · have hfm' : (fixMessage cfs).2 = false := eq_false_of_ne_true hfm
        rw [fixMessage_not_modified hfm']
        exact ⟨hnd, hflds⟩
    rcases fixChoice_obj_cases cfs with ⟨ht, heq⟩ | ⟨ht, heq⟩
    · rw [heq]
      exact (jwf_obj_iff _).mpr
        ⟨keysNodup_eraseA "tools" hrm.1, jwfFields_eraseA "tools" hrm.2⟩
    · rw [heq]
      exact (jwf_obj_iff _).mpr hrm

theorem jwfList_map_fixChoice {cs : List JSON} (h : jwfList cs = true) :
    jwfList (cs.map fun c => (fixChoice c).1) = true := by
  rw [jwfList_eq_all, listAllMap, List.all_eq_true]
  intro c hc
  exact jwf_fixChoice (jwf_of_list h hc)

/-! ## The main characterization of remove_empty_tools_in_obj -/

theorem recInto_ok {n : Nat} {v : JSON}
    (ih : ∀ j, jwf j = true → jsz j ≤ n → remF n j = (stripSpec j, hasET j))
    (hw : jwf v = true) (hs : jsz v ≤ n) :
    recInto (remF n) v = (stripSpec v, hasET v) := by
  by_cases hc : isContainer v = true
  · simp only [recInto, hc, if_true]
    exact ih v hw hs
  · have hc' : isContainer v = false := eq_false_of_ne_true hc
    simp only [recInto, hc', Bool.false_eq_true, if_false]
    rw [stripSpec_not_container hc', hasET_not_container hc']

theorem remF_characterization :
    ∀ n j, jwf j = true → jsz j ≤ n → remF n j = (stripSpec j, hasET j) := by
  intro n
  induction n with
  | zero =>
    intro j _ hsz
    exact absurd hsz (by have := jsz_pos j; omega)
  | succ n ih =>
    intro j hwf hsz
    cases j with
    | null => rfl
    | bool b => rfl
    | num lit => rfl
    | str s => rfl
    | arr xs =>
      show remStep (remF n) (.arr xs) = _
      have hszl : jszL xs ≤ n := by
        have : jsz (JSON.arr xs) = 1 + jszL xs := rfl
        omega
      have hrec : ∀ x ∈ xs, recInto (remF n) x = (stripSpec x, hasET x) := by
        intro x hx
        exact recInto_ok ih (jwf_of_list hwf hx)
          (by have := jsz_lt_of_mem_list hx; omega)
      simp only [remStep]
      have h1 : (xs.map (recInto (remF n))).map Prod.fst = xs.map stripSpec := by
        rw [List.map_map]
        exact List.map_congr_left fun x hx => by
          show (recInto (remF n) x).1 = stripSpec x
          rw [hrec x hx]
      have h2 : (xs.map (recInto (remF n))).any Prod.snd = xs.any hasET := by
        rw [listAnyMap]
        exact listAnyCongr fun x hx => by
          show (recInto (remF n) x).2 = hasET x
          rw [hrec x hx]
      rw [h1, h2]
      show (JSON.arr (xs.map stripSpec), xs.any hasET)
        = (JSON.arr (stripList xs), hasETList xs)
      rw [stripList_eq_map, hasETList_eq_any]
    | obj fs =>
      show remStep (remF n) (.obj fs) = _
      obtain ⟨hnd, hvals⟩ := (jwf_obj_iff fs).mp hwf
      have hszF : jszF fs ≤ n := by
        have : jsz (JSON.obj fs) = 1 + jszF fs := rfl
        omega
      have hmemfs : ∀ kv : String × JSON, kv ∈ (step2 (step1 fs).1).1 →
          jwf kv.2 = true ∧ jsz kv.2 ≤ n := by
        intro kv hkv
        constructor
        · rcases step2_cases (step1 fs).1 with ⟨cs, hc, heq⟩ | ⟨_, heq⟩
          · rw [heq] at hkv
            rcases mem_setA hkv with hin | hw2
            · have hmf : kv ∈ fs := by
                rcases step1_cases fs with ⟨_, heq1⟩ | ⟨_, heq1⟩
                · rw [heq1] at hin
                  exact mem_eraseA hin
                · rw [heq1] at hin
                  exact hin
              exact jwf_of_fields hvals hmf
            · rw [hw2]
              obtain ⟨k0, _, hmem0⟩ := lookup_mem hc
              have hmem1 : (k0, JSON.arr cs) ∈ fs := by
                rcases step1_cases fs with ⟨_, heq1⟩ | ⟨_, heq1⟩
                · rw [heq1] at hmem0
                  exact mem_eraseA hmem0
                · rw [heq1] at hmem0
                  exact hmem0
              have hwcs : jwf (JSON.arr cs) = true := jwf_of_fields hvals hmem1
              show jwfList (cs.map fun c => (fixChoice c).1) = true
              exact jwfList_map_fixChoice (show jwfList cs = true from hwcs)
          · rw [heq] at hkv
            have hmf : kv ∈ fs := by
              rcases step1_cases fs with ⟨_, heq1⟩ | ⟨_, heq1⟩
              · rw [heq1] at hkv
                exact mem_eraseA hkv
              · rw [heq1] at hkv
                exact hkv
            exact jwf_of_fields hvals hmf
        · have h1 := jsz_lt_of_mem_fields hkv
          have h2 := jszF_step2 (step1 fs).1
          have h3 := jszF_step1 fs
          omega
      have hrec : ∀ kv : String × JSON, kv ∈ (step2 (step1 fs).1).1 →
          recInto (remF n) kv.2 = (stripSpec kv.2, hasET kv.2) := fun kv hkv =>
        recInto_ok ih (hmemfs kv hkv).1 (hmemfs kv hkv).2
      simp only [remStep]
      have h1 : ((step2 (step1 fs).1).1.map fun kv => (kv.1, recInto (remF n) kv.2)).map
          (fun kr => (kr.1, kr.2.1))
          = (step2 (step1 fs).1).1.map fun kv => (kv.1, stripSpec kv.2) := by
        rw [List.map_map]
        exact List.map_congr_left fun kv hkv => by
          show (kv.1, (recInto (remF n) kv.2).1) = (kv.1, stripSpec kv.2)
          rw [hrec kv hkv]
      have h2 : ((step2 (step1 fs).1).1.map fun kv => (kv.1, recInto (remF n) kv.2)).any
          (fun kr => kr.2.2) = hetv (step2 (step1 fs).1).1 := by
        rw [listAnyMap]
        exact listAnyCongr fun kv hkv => by
          show (recInto (remF n) kv.2).2 = hasET kv.2
          rw [hrec kv hkv]
      rw [h1, h2, goalA hnd]
      have hflag : (((step1 fs).2 || (step2 (step1 fs).1).2)
          || hetv (step2 (step1 fs).1).1) = hasETFields fs := by
        rw [Bool.or_assoc, hetv_step2, flag1_hetv hnd]
      rw [hflag]
      rfl

theorem recIntoSimple_ok {n : Nat} {v : JSON}
    (ih : ∀ j, jwf j = true → jsz j ≤ n → remSimpleF n j = (stripSpec j, hasET j))
    (hw : jwf v = true) (hs : jsz v ≤ n) :
    recInto (remSimpleF n) v = (stripSpec v, hasET v) := by
  by_cases hc : isContainer v = true
  · simp only [recInto, hc, if_true]
    exact ih v hw hs
  · have hc' : isContainer v = false := eq_false_of_ne_true hc
    simp only [recInto, hc', Bool.false_eq_true, if_false]
    rw [stripSpec_not_container hc', hasET_not_container hc']

theorem remSimpleF_characterization :
    ∀ n j, jwf j = true → jsz j ≤ n → remSimpleF n j = (stripSpec j, hasET j) := by
  intro n
  induction n with
  | zero =>
    intro j _ hsz
    exact absurd hsz (by have := jsz_pos j; omega)
  | succ n ih =>
    intro j hwf hsz
    cases j with
    | null => rfl
    | bool b => rfl
    | num lit => rfl
    | str s => rfl
    | arr xs =>
      show remSimpleStep (remSimpleF n) (.arr xs) = _
      have hszl : jszL xs ≤ n := by
        have : jsz (JSON.arr xs) = 1 + jszL xs := rfl
        omega
      have hrec : ∀ x ∈ xs, recInto (remSimpleF n) x = (stripSpec x, hasET x) := by
        intro x hx
        exact recIntoSimple_ok ih (jwf_of_list hwf hx)
          (by have := jsz_lt_of_mem_list hx; omega)
      simp only [remSimpleStep]
      have h1 : (xs.map (recInto (remSimpleF n))).map Prod.fst = xs.map stripSpec := by
        rw [List.map_map]
        exact List.map_congr_left fun x hx => by
          show (recInto (remSimpleF n) x).1 = stripSpec x
          rw [hrec x hx]
      have h2 : (xs.map (recInto (remSimpleF n))).any Prod.snd = xs.any hasET := by
        rw [listAnyMap]
        exact listAnyCongr fun x hx => by
          show (recInto (remSimpleF n) x).2 = hasET x
          rw [hrec x hx]
      rw [h1, h2]
      show (JSON.arr (xs.map stripSpec), xs.any hasET)
        = (JSON.arr (stripList xs), hasETList xs)
      rw [stripList_eq_map, hasETList_eq_any]
    | obj fs =>
      show remSimpleStep (remSimpleF n) (.obj fs) = _
      obtain ⟨hnd, hvals⟩ := (jwf_obj_iff fs).mp hwf
      have hszF : jszF fs ≤ n := by
        have : jsz (JSON.obj fs) = 1 + jszF fs := rfl
        omega
      have hmemfs : ∀ kv : String × JSON, kv ∈ (step1 fs).1 →
          jwf kv.2 = true ∧ jsz kv.2 ≤ n := by
        intro kv hkv
        have hmf : kv ∈ fs := by
          rcases step1_cases fs with ⟨_, heq1⟩ | ⟨_, heq1⟩
          · rw [heq1] at hkv
            exact mem_eraseA hkv
          · rw [heq1] at hkv
            exact hkv
        refine ⟨jwf_of_fields hvals hmf, ?_⟩
        have h1 := jsz_lt_of_mem_fields hkv
        have h3 := jszF_step1 fs
        omega
      have hrec : ∀ kv : String × JSON, kv ∈ (step1 fs).1 →
          recInto (remSimpleF n) kv.2 = (stripSpec kv.2, hasET kv.2) := fun kv hkv =>
        recIntoSimple_ok ih (hmemfs kv hkv).1 (hmemfs kv hkv).2
      simp only [remSimpleStep]
      have h1 : ((step1 fs).1.map fun kv => (kv.1, recInto (remSimpleF n) kv.2)).map
          (fun kr => (kr.1, kr.2.1))
          = (step1 fs).1.map fun kv => (kv.1, stripSpec kv.2) := by
        rw [List.map_map]
        exact List.map_congr_left fun kv hkv => by
          show (kv.1, (recInto (remSimpleF n) kv.2).1) = (kv.1, stripSpec kv.2)
          rw [hrec kv hkv]
      have h2 : ((step1 fs).1.map fun kv => (kv.1, recInto (remSimpleF n) kv.2)).any
          (fun kr => kr.2.2) = hetv (step1 fs).1 := by
        rw [listAnyMap]
        exact listAnyCongr fun kv hkv => by
          show (recInto (remSimpleF n) kv.2).2 = hasET kv.2
          rw [hrec kv hkv]
      rw [h1, h2]
      have hA : (step1 fs).1.map (fun kv => (kv.1, stripSpec kv.2)) = stripFields fs := by
        rw [map_strip_eq_stripFields (htb_step1_false hnd), stripFields_step1]
      rw [hA, flag1_hetv hnd]
      rfl

/-! ## The stripped tree has no empty tools anywhere -/

theorem isEmptyArr_stripSpec (v : JSON) : isEmptyArr (stripSpec v) = isEmptyArr v := by
  cases v <;> try rfl
  case arr xs =>
    cases xs with
    | nil => rfl
    | cons x rest => rfl

theorem mem_stripFields {l : List (String × JSON)} {kv : String × JSON}
    (h : kv ∈ stripFields l) :
    ∃ kv0, kv0 ∈ l ∧ kv.1 = kv0.1 ∧ kv.2 = stripSpec kv0.2 ∧
      (kv0.1 == "tools" && isEmptyArr kv0.2) = false := by
  induction l with
  | nil => simp [stripFields] at h
  | cons kv0 rest ih =>
    obtain ⟨k, v⟩ := kv0
    by_cases hc : (k == "tools" && isEmptyArr v) = true
    · rw [show stripFields ((k, v) :: rest) = stripFields rest by simp [stripFields, hc]] at h
      obtain ⟨kv1, hm, h1, h2, h3⟩ := ih h
      exact ⟨kv1, List.mem_cons_of_mem _ hm, h1, h2, h3⟩
    · have hc' : (k == "tools" && isEmptyArr v) = false := eq_false_of_ne_true hc
      rw [show stripFields ((k, v) :: rest)
          = (k, stripSpec v) :: stripFields rest by simp [stripFields, hc']] at h
      rcases List.mem_cons.mp h with he | hm
      · exact ⟨(k, v), List.mem_cons_self _ _, by simp [he], by simp [he], hc'⟩
      · obtain ⟨kv1, hm1, h1, h2, h3⟩ := ih hm
        exact ⟨kv1, List.mem_cons_of_mem _ hm1, h1, h2, h3⟩

theorem hasET_stripSpec_aux : ∀ n j, jsz j ≤ n → hasET (stripSpec j) = false := by
  intro n
  induction n with
  | zero =>
    intro j hsz
    exact absurd hsz (by have := jsz_pos j; omega)
  | succ n ih =>
    intro j hsz
    cases j with
    | null => rfl
    | bool b => rfl
    | num lit => rfl
    | str s => rfl
    | arr xs =>
      show hasETList (stripList xs) = false
      rw [stripList_eq_map, hasETList_eq_any, listAnyMap, List.any_eq_false]
      intro x hx
      rw [Bool.not_eq_true]
      apply ih
      have h1 := jsz_lt_of_mem_list hx
      have h2 : jsz (JSON.arr xs) = 1 + jszL xs := rfl
      omega
    | obj fs =>
      show hasETFields (stripFields fs) = false
      rw [hasETFields_eq]
      have hszF : jszF fs ≤ n := by
        have : jsz (JSON.obj fs) = 1 + jszF fs := rfl
        omega
      have hA : htb (stripFields fs) = false := by
        rw [htb, List.any_eq_false]
        intro kv hkv
        obtain ⟨kv0, hm, hk1, hk2, hc⟩ := mem_stripFields hkv
        rw [Bool.not_eq_true, hk1, hk2, isEmptyArr_stripSpec]
        exact hc
      have hB : hetv (stripFields fs) = false := by
        rw [hetv, List.any_eq_false]
        intro kv hkv
        obtain ⟨kv0, hm, _, hk2, _⟩ := mem_stripFields hkv
        rw [Bool.not_eq_true, hk2]
        apply ih
        have h1 := jsz_lt_of_mem_fields hm
        omega
      rw [hA, hB]
      rfl

theorem hasET_stripSpec (j : JSON) : hasET (stripSpec j) = false :=
  hasET_stripSpec_aux (jsz j) j (Nat.le_refl _)

/-! ## Claims C1 and C10 -/

/-- C1: on every well-formed JSON tree (unique keys per object, as all
Python dicts have), `remove_empty_tools_in_obj` produces exactly the
spec-side `stripSpec` tree: every object entry `"tools": []` is removed at
every depth (root, inside array elements, inside nested objects) and
everything else — including a "tools" entry holding a non-empty array or
a non-array value — is left unchanged; the resulting tree contains no
`"tools": []` entry at any depth. -/
theorem removeEmptyTools_strips_exactly (j : JSON) (hwf : jwf j = true) :
    (removeEmptyTools j).1 = stripSpec j ∧ hasET (removeEmptyTools j).1 = false := by
  have h := remF_characterization (jsz j) j hwf (Nat.le_refl _)
  have h1 : (removeEmptyTools j).1 = stripSpec j := by
    rw [removeEmptyTools, h]
  refine ⟨h1, ?_⟩
  rw [h1]
  exact hasET_stripSpec j

/-- Witness for C1: a tree with an empty "tools" at the root, a non-empty
"tools" nested in an array element, and an empty "tools" nested two levels
down. -/
theorem removeEmptyTools_strips_exactly_witness :
    jwf (.obj [("tools", .arr []),
               ("keep", .arr [.obj [("tools", .arr [.str "t"]),
                                    ("deep", .obj [("tools", .arr [])])]])]) = true ∧
    (removeEmptyTools (.obj [("tools", .arr []),
               ("keep", .arr [.obj [("tools", .arr [.str "t"]),
                                    ("deep", .obj [("tools", .arr [])])]])])).1
      = stripSpec (.obj [("tools", .arr []),
               ("keep", .arr [.obj [("tools", .arr [.str "t"]),
                                    ("deep", .obj [("tools", .arr [])])]])]) ∧
    stripSpec (.obj [("tools", .arr []),
               ("keep", .arr [.obj [("tools", .arr [.str "t"]),
                                    ("deep", .obj [("tools", .arr [])])]])])
      = .obj [("keep", .arr [.obj [("tools", .arr [.str "t"]), ("deep", .obj [])]])] :=
  ⟨rfl,
   (removeEmptyTools_strips_exactly (.obj [("tools", .arr []),
      ("keep", .arr [.obj [("tools", .arr [.str "t"]),
                           ("deep", .obj [("tools", .arr [])])]])]) rfl).1,
   rfl⟩

/-- C10: on every well-formed JSON tree, the special-cased "choices"
traversal of lines 79-91 is redundant: `remove_empty_tools_in_obj` returns
the same tree and the same modified flag as the simplified variant that
performs only the root-level deletion plus the generic recursion. -/
theorem choicesSpecialCase_redundant (j : JSON) (hwf : jwf j = true) :
    removeEmptyTools j = removeEmptyToolsSimple j := by
  rw [removeEmptyTools, removeEmptyToolsSimple,
    remF_characterization (jsz j) j hwf (Nat.le_refl _),
    remSimpleF_characterization (jsz j) j hwf (Nat.le_refl _)]

/-- Witness for C10: a response-shaped tree exercising the "choices"
special case (empty "tools" both in a choice and in its nested message). -/
theorem choicesSpecialCase_redundant_witness :
    jwf (.obj [("choices", .arr [.obj [("message", .obj [("tools", .arr []),
                  ("content", .str "hi")]), ("tools", .arr [])]]),
               ("tools", .arr [])]) = true ∧
    removeEmptyTools (.obj [("choices", .arr [.obj [("message", .obj [("tools", .arr []),
                  ("content", .str "hi")]), ("tools", .arr [])]]),
               ("tools", .arr [])])
      = removeEmptyToolsSimple (.obj [("choices", .arr [.obj [("message",
                  .obj [("tools", .arr []), ("content", .str "hi")]),
                  ("tools", .arr [])]]),
               ("tools", .arr [])]) :=
  ⟨rfl,
   choicesSpecialCase_redundant (.obj [("choices", .arr [.obj [("message",
      .obj [("tools", .arr []), ("content", .str "hi")]), ("tools", .arr [])]]),
      ("tools", .arr [])]) rfl⟩
